import Mathlib

/-!
Verification of the symvead compression/storage core.

Shallow embedding of the Rust sources:
  src/engine/{planner,tokenizer,huffman,compressor,decompressor,symbols}.rs
  src/storage/{dictionary,symbols,metadata}.rs
  src/session.rs, src/protocol/frame.rs

Bytes are modelled as `Nat` (values < 256 where it matters), machine
integers as `Nat` with explicit truncation where overflow matters, Rust
`HashMap`s as association lists in first-insertion order (a deterministic
refinement of the unspecified iteration order), and fallible/panicking
code as `Option`/`Except` results.
-/

namespace Symvead

/-! # Definitions -/

abbrev Bytes := List Nat

/-! ## Association lists (deterministic model of Rust HashMap) -/

/-- First-match lookup, like `HashMap::get`. -/
def alookup {α β : Type} [DecidableEq α] (m : List (α × β)) (k : α) : Option β :=
  match m with
  | [] => none
  | (a, b) :: rest => if a = k then some b else alookup rest k

/-- Insert-or-replace, like `HashMap::insert`: an existing key keeps its
position, a new key is appended. -/
def ainsert {α β : Type} [DecidableEq α] (m : List (α × β)) (k : α) (v : β) :
    List (α × β) :=
  match m with
  | [] => [(k, v)]
  | (a, b) :: rest => if a = k then (k, v) :: rest else (a, b) :: ainsert rest k v

/-- Keys of an association list. -/
def akeys {α β : Type} (m : List (α × β)) : List α := m.map Prod.fst

/-- Increment-or-initialise a counter entry, like
`map.entry(k).and_modify(|v| *v += d).or_insert(d)`. -/
def abump {α : Type} [DecidableEq α] (m : List (α × Nat)) (k : α) (d : Nat) :
    List (α × Nat) :=
  match alookup m k with
  | some v => ainsert m k (v + d)
  | none => ainsert m k d

/-! ## Byte/word helpers -/

/-- Big-endian bytes of a `u32` (`u32::to_be_bytes`). -/
def u32be (n : Nat) : Bytes :=
  [(n / 2 ^ 24) % 256, (n / 2 ^ 16) % 256, (n / 2 ^ 8) % 256, n % 256]

/-- Read a big-endian `u32` from four bytes. -/
def u32ofBytes (b0 b1 b2 b3 : Nat) : Nat :=
  b0 * 2 ^ 24 + b1 * 2 ^ 16 + b2 * 2 ^ 8 + b3

/-- Read a big-endian `u64` from eight bytes. -/
def u64ofBytes (b0 b1 b2 b3 b4 b5 b6 b7 : Nat) : Nat :=
  ((((((b0 * 256 + b1) * 256 + b2) * 256 + b3) * 256 + b4) * 256 + b5) * 256 + b6) * 256 + b7

/-- Little-endian bytes of a `u32` (bincode fixint encoding). -/
def u32le (n : Nat) : Bytes :=
  [n % 256, (n / 2 ^ 8) % 256, (n / 2 ^ 16) % 256, (n / 2 ^ 24) % 256]

/-- Little-endian bytes of a `u64` (bincode fixint encoding). -/
def u64le (n : Nat) : Bytes :=
  [n % 256, (n / 2 ^ 8) % 256, (n / 2 ^ 16) % 256, (n / 2 ^ 24) % 256,
   (n / 2 ^ 32) % 256, (n / 2 ^ 40) % 256, (n / 2 ^ 48) % 256, (n / 2 ^ 56) % 256]

/-! ## SHA-256

Modelled from the spec: the module `crate::engine::hash` is declared in
`src/engine/mod.rs` but its source file is not in the repository snapshot;
the spec fixes its `sha256` to be standard SHA-256 ("Content hash
(SHA-256)", `hash = hex(SHA256(bytes)[0..16])`).  This is FIPS 180-4
SHA-256 over a byte list, returning the 32 digest bytes. -/

/-- Truncate to 32 bits. -/
def w32 (n : Nat) : Nat := n % 2 ^ 32

/-- Right-rotation of a 32-bit word. -/
def rotr32 (r x : Nat) : Nat := w32 (x / 2 ^ r + x * 2 ^ (32 - r))

/-- SHA-256 round constants. -/
def shaK : List Nat :=
  [1116352408, 1899447441, 3049323471, 3921009573, 961987163,
   1508970993, 2453635748, 2870763221, 3624381080, 310598401,
   607225278, 1426881987, 1925078388, 2162078206, 2614888103,
   3248222580, 3835390401, 4022224774, 264347078, 604807628,
   770255983, 1249150122, 1555081692, 1996064986, 2554220882,
   2821834349, 2952996808, 3210313671, 3336571891, 3584528711,
   113926993, 338241895, 666307205, 773529912, 1294757372,
   1396182291, 1695183700, 1986661051, 2177026350, 2456956037,
   2730485921, 2820302411, 3259730800, 3345764771, 3516065817,
   3600352804, 4094571909, 275423344, 430227734, 506948616,
   659060556, 883997877, 958139571, 1322822218, 1537002063,
   1747873779, 1955562222, 2024104815, 2227730452, 2361852424,
   2428436474, 2756734187, 3204031479, 3329325298]

/-- SHA-256 initial hash state. -/
def shaH0 : List Nat :=
  [1779033703, 3144134277, 1013904242, 2773480762, 1359893119,
   2600822924, 528734635, 1541459225]

/-- Message padding: append 0x80, zero bytes, and the 64-bit bit length. -/
def shaPad (msg : Bytes) : Bytes :=
  let padLen := (55 + 64 - msg.length % 64) % 64
  msg ++ 0x80 :: List.replicate padLen 0 ++
    ((List.range 8).map fun i => (msg.length * 8 / 2 ^ (8 * (7 - i))) % 256)

/-- Fuel-indexed chunking loop (fuel bounds the number of chunks; the
list length always suffices since each chunk consumes at least one
element). -/
def chunksOfGo (k : Nat) : Nat → Bytes → List Bytes
  | 0, _ => []
  | _, [] => []
  | fuel + 1, x :: xs =>
    (x :: List.take (k - 1) xs) :: chunksOfGo k fuel (List.drop (k - 1) xs)

/-- Split a list into chunks of `k` elements (`k > 0` on all call sites). -/
def chunksOf (k : Nat) (l : Bytes) : List Bytes := chunksOfGo k l.length l

/-- Bytes of one 64-byte block as sixteen 32-bit big-endian words. -/
def shaWords (block : Bytes) : List Nat :=
  (List.range 16).map fun i =>
    u32ofBytes (block.getD (4 * i) 0) (block.getD (4 * i + 1) 0)
      (block.getD (4 * i + 2) 0) (block.getD (4 * i + 3) 0)

/-- Message-schedule extension step. -/
def shaExtend (w : List Nat) (t : Nat) : List Nat :=
  let wm15 := w.getD (t - 15) 0
  let wm2 := w.getD (t - 2) 0
  let s0 := (rotr32 7 wm15) ^^^ (rotr32 18 wm15) ^^^ (wm15 / 2 ^ 3)
  let s1 := (rotr32 17 wm2) ^^^ (rotr32 19 wm2) ^^^ (wm2 / 2 ^ 10)
  w ++ [w32 (w.getD (t - 16) 0 + s0 + w.getD (t - 7) 0 + s1)]

/-- Full 64-entry message schedule of one block. -/
def shaSchedule (block : Bytes) : List Nat :=
  (List.range 48).foldl (fun w i => shaExtend w (16 + i)) (shaWords block)

/-- One SHA-256 round on the 8-word working state. -/
def shaRound (st : List Nat) (kw : Nat × Nat) : List Nat :=
  match st with
  | [a, b, c, d, e, f, g, h] =>
    let s1 := (rotr32 6 e) ^^^ (rotr32 11 e) ^^^ (rotr32 25 e)
    let ch := (e &&& f) ^^^ ((2 ^ 32 - 1 - e) &&& g)
    let t1 := w32 (h + s1 + ch + kw.1 + kw.2)
    let s0 := (rotr32 2 a) ^^^ (rotr32 13 a) ^^^ (rotr32 22 a)
    let mj := (a &&& b) ^^^ (a &&& c) ^^^ (b &&& c)
    let t2 := w32 (s0 + mj)
    [w32 (t1 + t2), a, b, c, w32 (d + t1), e, f, g]
  | _ => st

/-- Compress one 64-byte block into the hash state. -/
def shaBlock (hs : List Nat) (block : Bytes) : List Nat :=
  let ws := shaSchedule block
  let st := (shaK.zip ws).foldl shaRound hs
  (List.range 8).map fun i => w32 (hs.getD i 0 + st.getD i 0)

/-- Modelled from the spec: `crate::engine::hash::sha256` — standard
SHA-256 digest (32 bytes) of a byte sequence. -/
def sha256 (msg : Bytes) : Bytes :=
  let hs := (chunksOf 64 (shaPad msg)).foldl shaBlock shaH0
  hs.foldr (fun w acc => u32be w ++ acc) []

/-- Lowercase hex digit for a nibble. -/
def hexDigit (n : Nat) : Char :=
  Char.ofNat (if n < 10 then 48 + n else 87 + n)

/-- Lowercase hex string of a byte list (`hex::encode`). -/
def hexEncode (bs : Bytes) : String :=
  ⟨bs.foldr (fun b acc => hexDigit (b / 16) :: hexDigit (b % 16) :: acc) []⟩

/-! ## engine/symbols.rs -/

/-- Embeds `Symbol` (src/engine/symbols.rs). -/
structure Symbol where
  bytes : Bytes
  token : Nat
  gain : Int
  hash : String
deriving DecidableEq, Repr

/-- Embeds `Symbol::new`: `hash = hex::encode(&sha256(&bytes)[..16])`. -/
def Symbol.new (bytes : Bytes) (token : Nat) (gain : Int) : Symbol :=
  { bytes := bytes, token := token, gain := gain,
    hash := hexEncode ((sha256 bytes).take 16) }

/-! ## engine/planner.rs -/

/-- Sampling applied inside `plan_symbols`: inputs over 1 MiB are cut to
the prefix `min(data.len() / 20, 256 KiB)`. -/
def plannerSample (data : Bytes) : Bytes :=
  if data.length > 1024 * 1024 then
    data.take (min (data.length / 20) (256 * 1024))
  else data

/-- Substring-frequency map of `plan_symbols`: for each
`len in 2..=effective_max_len` and each `i in 0..(n.saturating_sub len)`,
bump the count of `sample_data[i..i+len]`. -/
def planFreq (sampleData : Bytes) (effectiveMaxLen : Nat) : List (Bytes × Nat) :=
  ((List.range (effectiveMaxLen - 1)).map (· + 2)).foldl
    (fun freq len =>
      (List.range (sampleData.length - len)).foldl
        (fun freq i => abump freq ((sampleData.drop i).take len) 1)
        freq)
    []

/-- Gain-filter-and-token-assignment loop of `plan_symbols`: walk the
frequency map, keep entries with `count*len - count*2 > 0`, handing out
tokens from 256 upward. -/
def planCandidates (freq : List (Bytes × Nat)) : List Symbol :=
  (freq.foldl
    (fun acc bc =>
      let gain : Int := (bc.2 : Int) * (bc.1.length : Int) - (bc.2 : Int) * 2
      if gain > 0 then (acc.1 ++ [Symbol.new bc.1 acc.2 gain], acc.2 + 1)
      else acc)
    ([], 256)).1

/-- Stable insertion into a gain-descending list (ties keep arrival
order), modelling Rust's stable `sort_by(|a, b| b.gain.cmp(&a.gain))`. -/
def insertByGain (s : Symbol) : List Symbol → List Symbol
  | [] => [s]
  | t :: ts => if t.gain < s.gain then s :: t :: ts else t :: insertByGain s ts

/-- Stable sort by descending gain. -/
def sortByGainDesc (l : List Symbol) : List Symbol :=
  l.foldr insertByGain []

/-- Embeds `plan_symbols` (src/engine/planner.rs): sample, count
substrings, keep positive-gain candidates with fresh tokens from 256,
sort by descending gain, truncate to 1000. -/
def plan_symbols (data : Bytes) (maxLen : Nat) : List Symbol :=
  let sampleData := plannerSample data
  let effectiveMaxLen := min maxLen 16
  (sortByGainDesc (planCandidates (planFreq sampleData effectiveMaxLen))).take 1000

/-! ## engine/tokenizer.rs -/

/-- One scan of the symbol list at the current position: the longest
symbol whose bytes are a prefix of the remaining input, first-come on
length ties (`s.bytes.len() > best_len`). -/
def bestMatch (remaining : Bytes) (symbols : List Symbol) : Option Nat × Nat :=
  symbols.foldl
    (fun best s =>
      if s.bytes.isPrefixOf remaining ∧ s.bytes.length > best.2 then
        (some s.token, s.bytes.length)
      else best)
    (none, 0)

/-- Fuel-indexed greedy tokenizer loop (fuel bounds the number of
emitted tokens; `input.length` always suffices since each step consumes
at least one byte). -/
def tokenizeGo (symbols : List Symbol) : Nat → Bytes → List Nat
  | 0, _ => []
  | _, [] => []
  | fuel + 1, b :: rest =>
    match bestMatch (b :: rest) symbols with
    | (some token, bestLen) =>
      token :: tokenizeGo symbols fuel ((b :: rest).drop bestLen)
    | (none, _) => b :: tokenizeGo symbols fuel rest

/-- Embeds `tokenize` (src/engine/tokenizer.rs): greedy longest-match
left-to-right; unmatched bytes pass through as literal tokens 0..=255. -/
def tokenize (input : Bytes) (symbols : List Symbol) : List Nat :=
  tokenizeGo symbols input.length input

/-! ## engine/huffman.rs

`HuffmanNode`'s `Option<Box<HuffmanNode>>` children are modelled by a
`nil` constructor; a `Frame`-level `None` child is `nil`. -/

/-- Embeds `HuffmanNode` (src/engine/huffman.rs); `nil` stands for an
absent (`None`) child. -/
inductive HuffmanNode where
  | nil
  | node (freq : Nat) (token : Option Nat) (left right : HuffmanNode)
deriving DecidableEq, Repr

/-- Frequency of a node (0 for an absent child). -/
def HuffmanNode.freqOf : HuffmanNode → Nat
  | .nil => 0
  | .node f _ _ _ => f

/-- Pop the minimum-frequency node from the heap, earliest-pushed first
on ties (deterministic refinement of `BinaryHeap`'s unspecified tie
order). -/
def heapPopMin (heap : List HuffmanNode) : Option (HuffmanNode × List HuffmanNode) :=
  match heap with
  | [] => none
  | n :: rest =>
    match heapPopMin rest with
    | none => some (n, [])
    | some (m, others) =>
      if n.freqOf ≤ m.freqOf then some (n, rest) else some (m, n :: others)

/-- Tree-building loop of `HuffmanTable::build`: repeatedly combine the
two lowest-frequency nodes until one remains (fuel bounds iterations). -/
def heapCombine : Nat → List HuffmanNode → List HuffmanNode
  | 0, heap => heap
  | fuel + 1, heap =>
    if heap.length > 1 then
      match heapPopMin heap with
      | none => heap
      | some (right, heap1) =>
        match heapPopMin heap1 with
        | none => heap
        | some (left, heap2) =>
          heapCombine fuel
            (heap2 ++ [.node (left.freqOf + right.freqOf) none left right])
    else heap
termination_by fuel => fuel

/-- Embeds the recursive `build_codes` helper of `HuffmanTable::build`. -/
def build_codes (n : HuffmanNode) (code : List Bool)
    (table : List (Nat × List Bool)) : List (Nat × List Bool) :=
  match n with
  | .nil => table
  | .node _ (some token) _ _ =>
    ainsert table token (if code.isEmpty then [false] else code)
  | .node _ none left right =>
    let table1 := match left with
      | .nil => table
      | l => build_codes l (code ++ [false]) table
    match right with
    | .nil => table1
    | r => build_codes r (code ++ [true]) table1

/-- Embeds `HuffmanTable` (src/engine/huffman.rs). -/
structure HuffmanTable where
  encode_table : List (Nat × List Bool)
  decode_tree : Option HuffmanNode
deriving DecidableEq, Repr

/-- Embeds `HuffmanTable::build`: token frequency map, single-token
special case, min-heap tree construction, code assignment. -/
def HuffmanTable.build (tokens : List Nat) : HuffmanTable :=
  let freqMap := tokens.foldl (fun m t => abump m t 1) []
  if freqMap.length ≤ 1 then
    match freqMap with
    | [] => { encode_table := [], decode_tree := none }
    | (token, _) :: _ =>
      { encode_table := [(token, [false])], decode_tree := none }
  else
    let heap := freqMap.map fun tf => HuffmanNode.node tf.2 (some tf.1) .nil .nil
    match heapCombine heap.length heap with
    | [] => { encode_table := [], decode_tree := none }
    | root :: _ =>
      { encode_table := build_codes root [] [], decode_tree := some root }

/-- Bit-packing loop shared by `HuffmanTable::encode` and the table
serialiser in `compress`: MSB-first bytes plus the leftover bit count. -/
def packBits (bits : List Bool) : Bytes × Nat :=
  let step := fun (acc : Bytes × Nat × Nat) (bit : Bool) =>
    let cur := if bit then acc.2.1 + 2 ^ (7 - acc.2.2) else acc.2.1
    if acc.2.2 = 7 then (acc.1 ++ [cur], 0, 0) else (acc.1, cur, acc.2.2 + 1)
  let fin := bits.foldl step ([], 0, 0)
  (if fin.2.2 > 0 then fin.1 ++ [fin.2.1] else fin.1, fin.2.2)

/-- Embeds `HuffmanTable::encode`: concatenated codes, packed MSB-first,
with the final byte's valid-bit count prepended. -/
def HuffmanTable.encode (t : HuffmanTable) (tokens : List Nat) : Bytes :=
  let bits := tokens.foldl
    (fun bs tok => match alookup t.encode_table tok with
      | some code => bs ++ code
      | none => bs) []
  let packed := packBits bits
  packed.2 :: packed.1

/-- Step one bit down the decode tree; a missing child is the source's
`unwrap` panic, modelled as `none`. -/
def HuffmanNode.child (n : HuffmanNode) (bit : Bool) : Option HuffmanNode :=
  match n with
  | .nil => none
  | .node _ _ left right =>
    match (if bit then right else left) with
    | .nil => none
    | c => some c

/-- Token of a node, if marked. -/
def HuffmanNode.tokenOf : HuffmanNode → Option Nat
  | .nil => none
  | .node _ t _ _ => t

/-- MSB-first bits of one byte, truncated to `count` bits. -/
def byteBits (b : Nat) (count : Nat) : List Bool :=
  ((List.range 8).map fun i => b / 2 ^ (7 - i) % 2 == 1).take count

/-- Bit-consuming walk of `HuffmanTable::decode`: on reaching a marked
node emit its token and restart at the root; `none` models the panic on
a missing child. -/
def decodeBits (root : HuffmanNode) : List Bool → HuffmanNode → Option (List Nat)
  | [], _ => some []
  | bit :: bits, cur =>
    match cur.child bit with
    | none => none
    | some nxt =>
      match nxt.tokenOf with
      | some token => (decodeBits root bits root).map (token :: ·)
      | none => decodeBits root bits nxt

/-- Valid bit stream of the framed Huffman payload: all bytes except the
last contribute 8 bits, the last contributes `last_byte_bits` bits when
that count is positive. -/
def framedBits (bytes : Bytes) (lastByteBits : Nat) : List Bool :=
  match bytes with
  | [] => []
  | b :: rest =>
    match rest with
    | [] => byteBits b (if lastByteBits > 0 then lastByteBits else 8)
    | _ => byteBits b 8 ++ framedBits rest lastByteBits

/-- Embeds `HuffmanTable::decode`: strip the tail-bit count, then either
replay the single-token special case or walk the tree; `none` models a
panic. -/
def HuffmanTable.decode (t : HuffmanTable) (data : Bytes) : Option (List Nat) :=
  match data with
  | [] => some []
  | lastByteBits :: bytes =>
    if bytes.isEmpty then some []
    else
      match t.decode_tree with
      | none =>
        match t.encode_table with
        | (token, _) :: _ =>
          let totalBits := if lastByteBits > 0 then
              (bytes.length - 1) * 8 + lastByteBits
            else bytes.length * 8
          some (List.replicate totalBits token)
        | [] => some []
      | some root => decodeBits root (framedBits bytes lastByteBits) root

/-! ## storage/dictionary.rs -/

/-- Embeds `Dictionary` (src/storage/dictionary.rs). `created_at` and
`frozen_at` epochs are environment inputs, passed explicitly where the
source calls `SystemTime::now()`. -/
structure Dictionary where
  id : String
  encode : List (Bytes × Nat)
  decode : List (Nat × Bytes)
  frozen : Bool
  created_at : Nat
  frozen_at : Option Nat
  version : String
deriving DecidableEq, Repr

/-- Embeds `Dictionary::new`. -/
def Dictionary.new (id : String) (now : Nat) : Dictionary :=
  { id := id, encode := [], decode := [], frozen := false,
    created_at := now, frozen_at := none, version := "symvea-engine@0.1.0" }

/-- UTF-8 bytes of an ASCII string (all strings serialised here — ids,
hex hashes, version tags — are ASCII). -/
def strBytes (s : String) : Bytes := s.data.map Char.toNat

/-- Bincode (fixint, little-endian) encoding of a `String`: `u64` length
then the bytes. -/
def bincodeString (s : String) : Bytes := u64le s.length ++ strBytes s

/-- Bincode encoding of a `Vec<u8>`. -/
def bincodeBytes (b : Bytes) : Bytes := u64le b.length ++ b

/-- Bincode encoding of an `Option<u64>`: tag byte then the value. -/
def bincodeOptU64 : Option Nat → Bytes
  | none => [0]
  | some n => 1 :: u64le n

/-- Embeds `bincode::serialize` of a `Dictionary` (field order as
declared; maps as `u64` length plus entries, in the association-list
order standing in for `HashMap` iteration order). -/
def Dictionary.serialize (d : Dictionary) : Bytes :=
  bincodeString d.id ++
  (u64le d.encode.length ++
    d.encode.foldr (fun e acc => bincodeBytes e.1 ++ u32le e.2 ++ acc) []) ++
  (u64le d.decode.length ++
    d.decode.foldr (fun e acc => u32le e.1 ++ bincodeBytes e.2 ++ acc) []) ++
  [if d.frozen then 1 else 0] ++
  u64le d.created_at ++
  bincodeOptU64 d.frozen_at ++
  bincodeString d.version

/-- Embeds `Dictionary::compute_hash`:
`hex::encode(&sha256(&bincode::serialize(self))[..16])`. -/
def Dictionary.compute_hash (d : Dictionary) : String :=
  hexEncode ((sha256 d.serialize).take 16)

/-- Embeds `Dictionary::freeze`, returning the id together with the
updated dictionary; `now` stands for `SystemTime::now()`. -/
def Dictionary.freeze (d : Dictionary) (now : Nat) : String × Dictionary :=
  if d.frozen then (d.compute_hash, d)
  else
    let d1 := { d with frozen := true, frozen_at := some now }
    let dict_id := d1.compute_hash
    (dict_id, { d1 with id := dict_id })

/-! ## storage/symbols.rs -/

/-- Embeds `StoredSymbol` (src/storage/symbols.rs). -/
structure StoredSymbol where
  hash : String
  bytes : Bytes
  size : Nat
  first_seen : Nat
  usage_count : Nat
  content_hash : Bytes
deriving DecidableEq, Repr

/-- Embeds `SymbolUsage` (src/storage/symbols.rs). -/
structure SymbolUsage where
  symbol_hash : String
  total_bytes_contributed : Nat
  total_occurrences : Nat
  objects : List (String × Nat)
deriving DecidableEq, Repr

/-- On-disk state of a `SymbolStore` data root: the `symbols/<hash>` and
`symbol_usage/<hash>` files, each holding one serialised record. -/
structure SymbolStore where
  symbols : List (String × StoredSymbol)
  usages : List (String × SymbolUsage)
deriving DecidableEq, Repr

/-- Empty data root. -/
def SymbolStore.init : SymbolStore := { symbols := [], usages := [] }

/-- Embeds `SymbolStore::load_symbol`: read and deserialise
`symbols/<hash>`. -/
def SymbolStore.load_symbol (st : SymbolStore) (hash : String) :
    Option StoredSymbol :=
  alookup st.symbols hash

/-- Embeds `SymbolStore::store_symbol`: create the record on first
write; on an existing file, load it, increment `usage_count`, and write
it back. `now` stands for `SystemTime::now()`. -/
def SymbolStore.store_symbol (st : SymbolStore) (hash : String) (bytes : Bytes)
    (now : Nat) : SymbolStore :=
  match alookup st.symbols hash with
  | none =>
    let record : StoredSymbol :=
      { hash := hash, bytes := bytes, size := bytes.length,
        first_seen := now, usage_count := 1, content_hash := sha256 bytes }
    { st with symbols := ainsert st.symbols hash record }
  | some sym =>
    let record := { sym with usage_count := sym.usage_count + 1 }
    { st with symbols := ainsert st.symbols hash record }

/-- Record-level update of `SymbolStore::add_usage` (lines 97-102):
replace this object's count and rebuild the totals. -/
def addUsageStep (usage : SymbolUsage) (object_key : String)
    (symbol_bytes occurrence_count : Nat) : SymbolUsage :=
  let prev_count := (alookup usage.objects object_key).getD 0
  let objects := ainsert usage.objects object_key occurrence_count
  let total_occurrences := usage.total_occurrences - prev_count + occurrence_count
  { usage with
    objects := objects,
    total_occurrences := total_occurrences,
    total_bytes_contributed := total_occurrences * symbol_bytes }

/-- Fresh usage record for a symbol with no `symbol_usage/<hash>` file. -/
def SymbolUsage.initFor (symbol_hash : String) : SymbolUsage :=
  { symbol_hash := symbol_hash, total_bytes_contributed := 0,
    total_occurrences := 0, objects := [] }

/-- Embeds `SymbolStore::add_usage`: load or initialise the usage
record, apply the update, write it back. -/
def SymbolStore.add_usage (st : SymbolStore) (symbol_hash object_key : String)
    (symbol_bytes occurrence_count : Nat) : SymbolStore :=
  let usage := (alookup st.usages symbol_hash).getD (SymbolUsage.initFor symbol_hash)
  let updated := addUsageStep usage object_key symbol_bytes occurrence_count
  { st with usages := ainsert st.usages symbol_hash updated }

/-! ## storage/metadata.rs -/

/-- Embeds `SymbolInfo` (src/storage/metadata.rs). -/
structure SymbolInfo where
  hash : String
  bytes : Nat
deriving DecidableEq, Repr

/-- Embeds `TokenBreakdown` (src/storage/metadata.rs). -/
structure TokenBreakdown where
  symbol_bytes : Nat
  literal_bytes : Nat
  literal_reason : String
deriving DecidableEq, Repr

/-- Embeds `ObjectMetadata` (src/storage/metadata.rs). The `f64` field
`explained_ratio` (a float equal to `explained_bytes / input.len()`) is
outside the embedding; its integer numerator appears as
`token_breakdown.symbol_bytes`. -/
structure ObjectMetadata where
  key : String
  object_hash : Bytes
  original_hash : Bytes
  dict_id : String
  engine_version : String
  original_size : Nat
  compressed_size : Nat
  stored_at : Nat
  user_id : Option String
  codec_version : Nat
  symbols : List SymbolInfo
  token_breakdown : TokenBreakdown
deriving DecidableEq, Repr

/-- Embeds `ObjectMetadata::new`; `now` stands for `SystemTime::now()`. -/
def ObjectMetadata.new (key : String) (object_hash original_hash : Bytes)
    (dict_id : String) (original_size compressed_size : Nat)
    (user_id : Option String) (now : Nat) : ObjectMetadata :=
  { key := key, object_hash := object_hash, original_hash := original_hash,
    dict_id := dict_id, engine_version := "symvea-engine@0.1.0",
    original_size := original_size, compressed_size := compressed_size,
    stored_at := now, user_id := user_id, codec_version := 1,
    symbols := [],
    token_breakdown := { symbol_bytes := 0, literal_bytes := 0,
                         literal_reason := "Below promotion threshold" } }

/-! ## engine/compressor.rs -/

/-- Result bundle of `compress`: the returned tuple plus the mutated
dictionary and symbol store it threads. -/
structure CompressResult where
  payload : Bytes
  symbol_infos : List SymbolInfo
  token_breakdown : TokenBreakdown
  dict : Dictionary
  store : SymbolStore
deriving Repr

/-- Unfrozen-branch loop of `compress`: store each planned symbol,
record a usage entry with count 1, track metadata, and insert the pair
into both dictionary maps. -/
def compressPlanLoop (planned : List Symbol) (object_key : String) (now : Nat)
    (dict : Dictionary) (store : SymbolStore) :
    Dictionary × SymbolStore × List SymbolInfo :=
  planned.foldl
    (fun acc s =>
      let symbol := Symbol.new s.bytes s.token s.gain
      let store1 := acc.2.1.store_symbol symbol.hash symbol.bytes now
      let store2 := store1.add_usage symbol.hash object_key symbol.bytes.length 1
      let dict1 := { acc.1 with
        encode := ainsert acc.1.encode symbol.bytes symbol.token,
        decode := ainsert acc.1.decode symbol.token symbol.bytes }
      (dict1, store2,
        acc.2.2 ++ [{ hash := symbol.hash, bytes := symbol.bytes.length }]))
    (dict, store, [])

/-- Frozen-branch counting loop of `compress`: per-token usage counts
keyed by symbol hash, plus first-seen `SymbolInfo` entries. -/
def compressFrozenCounts (tokens : List Nat) (dict : Dictionary) :
    List (String × Nat) × List SymbolInfo :=
  tokens.foldl
    (fun acc token =>
      match alookup dict.decode token with
      | some bytes =>
        let symbol := Symbol.new bytes token 0
        let counts := abump acc.1 symbol.hash 1
        let infos :=
          if acc.2.any (fun i => i.hash = symbol.hash) then acc.2
          else acc.2 ++ [{ hash := symbol.hash, bytes := symbol.bytes.length }]
        (counts, infos)
      | none => acc)
    ([], [])

/-- Symbol view of the dictionary used by `compress` for tokenisation:
`dict.encode.iter().map(|(b, t)| Symbol::new(b.clone(), *t, 0))`. -/
def dictSymbols (dict : Dictionary) : List Symbol :=
  dict.encode.map fun bt => Symbol.new bt.1 bt.2 0

/-- Payload serialisation tail of `compress`: Huffman-table entries
(token, bit length, byte length, packed code bytes) and the framed bit
stream, all length-prefixed big-endian. -/
def compressPayload (table : HuffmanTable) (huffmanData : Bytes) : Bytes :=
  u32be table.encode_table.length ++
  table.encode_table.foldr
    (fun tc acc =>
      let codeBytes := (packBits tc.2).1
      u32be tc.1 ++ [tc.2.length % 256] ++ [codeBytes.length % 256] ++
        codeBytes ++ acc)
    [] ++
  u32be huffmanData.length ++ huffmanData

/-- Argument pair `compress` hands to `plan_symbols` (lines 22-27): for
inputs over 1 MiB, the prefix `min(input.len() / 10, 64 KiB)` with
`max_len` 16; otherwise the whole input with `max_len` 32. -/
def compressPlanArg (input : Bytes) : Bytes × Nat :=
  if input.length > 1024 * 1024 then
    (input.take (min (input.length / 10) (64 * 1024)), 16)
  else (input, 32)

/-- Embeds `compress` (src/engine/compressor.rs). -/
def compress (input : Bytes) (dict : Dictionary) (store : SymbolStore)
    (object_key : String) (now : Nat) : CompressResult :=
  let planned :=
    if ¬dict.frozen then
      plan_symbols (compressPlanArg input).1 (compressPlanArg input).2
    else []
  let (dict1, store1, infos) :=
    if ¬dict.frozen then compressPlanLoop planned object_key now dict store
    else
      let frozenTokens := tokenize input (dictSymbols dict)
      let (counts, infos) := compressFrozenCounts frozenTokens dict
      let store1 := counts.foldl
        (fun st hc =>
          match infos.find? (fun i => i.hash = hc.1) with
          | some info => st.add_usage hc.1 object_key info.bytes hc.2
          | none => st)
        store
      (dict, store1, infos)
  let tokens := tokenize input (dictSymbols dict1)
  let explained := tokens.foldl
    (fun eb token =>
      match alookup dict1.decode token with
      | some bytes => (eb.1 + bytes.length, eb.2)
      | none => (eb.1, eb.2 + 1))
    (0, 0)
  let huffmanTable := HuffmanTable.build tokens
  let huffmanData := huffmanTable.encode tokens
  { payload := compressPayload huffmanTable huffmanData,
    symbol_infos := infos,
    token_breakdown := { symbol_bytes := explained.1,
                         literal_bytes := explained.2,
                         literal_reason := "Below promotion threshold" },
    dict := dict1, store := store1 }

/-! ## engine/decompressor.rs -/

/-- Insertion of one code path into the rebuilt decode tree
(`rebuild_tree`'s inner walk): absent children are created as empty
nodes; the final node is marked with the token. -/
def rebuildInsert : List Bool → Nat → HuffmanNode → HuffmanNode
  | [], token, .nil => .node 0 (some token) .nil .nil
  | [], token, .node f _ l r => .node f (some token) l r
  | bit :: bits, token, n =>
    match n with
    | .nil =>
      if bit then .node 0 none .nil (rebuildInsert bits token .nil)
      else .node 0 none (rebuildInsert bits token .nil) .nil
    | .node f t l r =>
      if bit then .node f t l (rebuildInsert bits token r)
      else .node f t (rebuildInsert bits token l) r

/-- Embeds `rebuild_tree` (src/engine/decompressor.rs). -/
def rebuild_tree (encode_table : List (Nat × List Bool)) : HuffmanNode :=
  encode_table.foldl (fun root tc => rebuildInsert tc.2 tc.1 root)
    (.node 0 none .nil .nil)

/-- Table-parsing loop of `decompress`: `none` models the source's
`return Vec::new()` on a truncation guard. -/
def parseEntries : Nat → Bytes → Nat → List (Nat × List Bool) →
    Option (List (Nat × List Bool) × Nat)
  | 0, _, offset, table => some (table, offset)
  | n + 1, data, offset, table =>
    if offset + 6 > data.length then none
    else
      let token := u32ofBytes (data.getD offset 0) (data.getD (offset + 1) 0)
        (data.getD (offset + 2) 0) (data.getD (offset + 3) 0)
      let code_len := data.getD (offset + 4) 0
      let code_bytes_len := data.getD (offset + 5) 0
      if offset + 6 + code_bytes_len > data.length then none
      else
        let code_bytes := ((data.drop (offset + 6)).take code_bytes_len)
        let code := (code_bytes.foldr (fun b acc => byteBits b 8 ++ acc) []).take code_len
        parseEntries n data (offset + 6 + code_bytes_len) (ainsert table token code)

/-- Token-to-byte expansion at the end of `decompress`: dictionary
symbols expand to their bytes, tokens 0..=255 to themselves, anything
else is dropped. -/
def expandTokens (tokens : List Nat) (dict : Dictionary) : Bytes :=
  tokens.foldl
    (fun out token =>
      match alookup dict.decode token with
      | some bytes => out ++ bytes
      | none => if token ≤ 255 then out ++ [token] else out)
    []

/-- Embeds `decompress` (src/engine/decompressor.rs): `some []` models
the early `return Vec::new()` guards, `none` models a panic inside the
Huffman decode walk. -/
def decompress (data : Bytes) (dict : Dictionary) : Option Bytes :=
  if data.length < 4 then some []
  else
    let table_size := u32ofBytes (data.getD 0 0) (data.getD 1 0)
      (data.getD 2 0) (data.getD 3 0)
    match parseEntries table_size data 4 [] with
    | none => some []
    | some (encode_table, offset) =>
      if offset + 4 > data.length then some []
      else
        let compressed_size := u32ofBytes (data.getD offset 0)
          (data.getD (offset + 1) 0) (data.getD (offset + 2) 0)
          (data.getD (offset + 3) 0)
        if offset + 4 + compressed_size > data.length then some []
        else
          let compressed_data := (data.drop (offset + 4)).take compressed_size
          let table : HuffmanTable :=
            { encode_table := encode_table,
              decode_tree := some (rebuild_tree encode_table) }
          match table.decode compressed_data with
          | none => none
          | some tokens => some (expandTokens tokens dict)

/-! ## session.rs — upload path -/

/-- Result bundle of `Session::handle_upload`: the stored payload and
metadata, plus the mutated dictionary and symbol store. -/
structure UploadResult where
  payload : Bytes
  meta : ObjectMetadata
  dict : Dictionary
  store : SymbolStore
deriving Repr

/-- Embeds `Session::handle_upload` (src/session.rs, up to the storage
write): hash the input, compress under the dictionary lock, pick
`dict_id`, and assemble the `ObjectMetadata` record. -/
def handle_upload (key : String) (data : Bytes) (user_id : Option String)
    (dict : Dictionary) (store : SymbolStore) (now : Nat) : UploadResult :=
  let original_size := data.length
  let content_hash := sha256 data
  let original_hash := content_hash
  let c := compress data dict store key now
  let dict_id := if c.dict.frozen then c.dict.id else "mutable"
  let meta0 := ObjectMetadata.new key content_hash original_hash dict_id
    original_size c.payload.length user_id now
  { payload := c.payload,
    meta := { meta0 with symbols := c.symbol_infos,
                         token_breakdown := c.token_breakdown },
    dict := c.dict, store := c.store }

/-! ## session.rs — chunked uploads -/

/-- Embeds `ChunkedUpload` (src/session.rs). -/
structure ChunkedUpload where
  key : String
  total_size : Nat
  chunk_count : Nat
  received_chunks : List (Nat × Bytes)
  user_id : Option String
deriving Repr

/-- State created by a `ChunkStart` frame. -/
def ChunkedUpload.start (key : String) (total_size chunk_count : Nat)
    (user_id : Option String) : ChunkedUpload :=
  { key := key, total_size := total_size, chunk_count := chunk_count,
    received_chunks := [], user_id := user_id }

/-- Assembly loop of `handle_chunked_complete`: chunks in index order,
failing on any missing index. -/
def gatherChunks (u : ChunkedUpload) : Except String Bytes :=
  (List.range u.chunk_count).foldl
    (fun acc i =>
      acc.bind fun d =>
        match alookup u.received_chunks i with
        | some chunk => .ok (d ++ chunk)
        | none => .error "Missing chunk")
    (.ok [])

/-- Embeds `Session::handle_chunked_complete` up to the point where the
assembled bytes enter the normal upload path. -/
def handle_chunked_complete (u : ChunkedUpload) : Except String Bytes :=
  (gatherChunks u).bind fun data =>
    if data.length ≠ u.total_size then .error "Size mismatch"
    else .ok data

/-- Embeds the `ChunkData` arm of `Session::run`: insert the chunk;
when the received count reaches `chunk_count`, assemble and finish (the
entry is removed, so any later `ChunkData` for the key is an unknown
upload and terminates the session). Returns the assembled bytes handed
to the upload path, if assembly was triggered. -/
def runChunkData (u : ChunkedUpload) :
    List (Nat × Bytes) → Except String (Option Bytes)
  | [] => .ok none
  | (i, d) :: rest =>
    let u2 := { u with received_chunks := ainsert u.received_chunks i d }
    if u2.received_chunks.length = u2.chunk_count then
      match handle_chunked_complete u2 with
      | .error e => .error e
      | .ok bytes =>
        match rest with
        | [] => .ok (some bytes)
        | _ => .error "Unknown chunked upload"
    else runChunkData u2 rest

/-! ## protocol/frame.rs — ChunkStart parsing -/

/-- Big-endian value of a byte list. -/
def ofBytesBE (bs : Bytes) : Nat := bs.foldl (fun acc b => acc * 256 + b) 0

/-- Read `n` consecutive bytes starting at `start`; `none` when any
index is out of bounds (the source's indexing panic). -/
def readByteRange (p : Bytes) (start n : Nat) : Option Bytes :=
  (List.range n).mapM fun j => p[start + j]?

/-- Embeds the `0x10 => // ChunkStart` arm of `read_frame`
(src/protocol/frame.rs lines 143-161). The outer `Option` models
indexing panics (`none` = panic); the inner `Except` carries the arm's
explicit error returns. Keys stay as raw bytes (the `String::from_utf8`
step does not move or check any index). -/
def parseChunkStart (payload : Bytes) :
    Option (Except String (Bytes × Nat × Nat)) :=
  if payload.length < 12 then
    some (.error "ChunkStart frame payload too short")
  else
    let key_len := u32ofBytes (payload.getD 0 0) (payload.getD 1 0)
      (payload.getD 2 0) (payload.getD 3 0)
    if payload.length < 12 + key_len then
      some (.error "ChunkStart frame payload too short for key")
    else
      let key := (payload.drop 4).take key_len
      match readByteRange payload (4 + key_len) 8,
            readByteRange payload (12 + key_len) 4 with
      | some ts, some cc => some (.ok (key, ofBytesBE ts, ofBytesBE cc))
      | _, _ => none

/-! ## Reachable-state chain used by claims C1 and C2

Three uploads on a fresh server: the planner hands out tokens starting
at 256 on every call, so the second upload's symbol `[1,1,1]` reuses
token 256 and overwrites `decode[256]` while the stale encode entry
`[0,0,0] → 256` survives. -/

/-- Fresh global dictionary as created in src/server.rs. -/
def rtDict0 : Dictionary := Dictionary.new "global" 0

/-- First upload: `[0,0,0,0]` plans symbol `[0,0,0] → 256`. -/
def rtStep1 : CompressResult := compress [0, 0, 0, 0] rtDict0 SymbolStore.init "a" 0

/-- Second upload: `[1,1,1,1]` plans symbol `[1,1,1] → 256`. -/
def rtStep2 : CompressResult := compress [1, 1, 1, 1] rtStep1.dict rtStep1.store "b" 0

/-- Third upload: `[0,0,0]` tokenises to the stale token 256. -/
def rtStep3 : CompressResult := compress [0, 0, 0] rtStep2.dict rtStep2.store "c" 0

/-! ## Claim C3: freeze idempotence -/

/-- First `freeze()` on the fresh global dictionary (times fixed at 0). -/
def freezeFirst : String × Dictionary := Dictionary.freeze (Dictionary.new "global" 0) 0

/-- Second `freeze()` on the already-frozen dictionary. -/
def freezeSecond : String × Dictionary := Dictionary.freeze freezeFirst.2 0

/-! ## Claim C4: object_hash -/

/-- Upload of the empty object on a fresh server. -/
def emptyUpload : UploadResult :=
  handle_upload "k" [] none (Dictionary.new "global" 0) SymbolStore.init 0

/-! ## Claim C6: planner sampling -/

/-- Data the symbol-mining step of the upload pipeline actually counts
over: `compress` picks the planner argument, `plan_symbols` applies its
own sampling to it. -/
def miningData (input : Bytes) : Bytes :=
  plannerSample (compressPlanArg input).1

/-- Mining prefix as the claim states it: inputs over 1 MiB are cut to
`min(input.len() / 20, 256 KiB)`. -/
def claimedMiningData (input : Bytes) : Bytes :=
  if input.length > 1024 * 1024 then
    input.take (min (input.length / 20) (256 * 1024))
  else input

/-! ## Claim C7: symbol immutability -/

/-- First write of hash `"h"` with bytes `[1]`. -/
def storeOnce : SymbolStore := SymbolStore.init.store_symbol "h" [1] 0

/-- Second `store_symbol` for the same hash with different bytes. -/
def storeTwice : SymbolStore := storeOnce.store_symbol "h" [2] 1

/-- Fold a list of `store_symbol` calls over a store state. -/
def applyStores (st : SymbolStore) (ops : List (String × Bytes × Nat)) :
    SymbolStore :=
  ops.foldl (fun s op => s.store_symbol op.1 op.2.1 op.2.2) st

/-! ## Claim C8: usage consistency -/

/-- Sum of the per-object occurrence counts. -/
def sumValues (m : List (String × Nat)) : Nat := (m.map Prod.snd).sum

/-- Usage-consistency invariant of the spec: the corpus total equals the
sum over objects, and the byte total is the occurrence total times the
symbol size. -/
def usageInvariant (size : Nat) (u : SymbolUsage) : Prop :=
  u.total_occurrences = sumValues u.objects ∧
  u.total_bytes_contributed = u.total_occurrences * size

/-- Stored usage record for a hash after a fold of store-level
`add_usage` calls, read back with the same default the source uses. -/
def storedUsage (h : String) (size : Nat) (updates : List (String × Nat)) :
    SymbolUsage :=
  (alookup ((updates.foldl (fun s kc => s.add_usage h kc.1 size kc.2)
      SymbolStore.init)).usages h).getD (SymbolUsage.initFor h)

/-! ## Claim C5: planner counting -/

/-- Occurrence count of `s` as a contiguous substring of `data`, as the
claim states it: every start position `i` with `i + |s| <= |data|`. -/
def countOcc (s data : Bytes) : Nat :=
  ((List.range (data.length + 1 - s.length)).filter
    fun i => (data.drop i).take s.length = s).length

/-- Occurrence count the planner loop actually computes: start positions
`i in 0..(|data| - |s|)` (exclusive), so the occurrence ending at the
final byte is omitted. -/
def countOccStrict (s data : Bytes) : Nat :=
  ((List.range (data.length - s.length)).filter
    fun i => (data.drop i).take s.length = s).length

/-- Number of occurrences of `s` in the list `L`. -/
def occFreq (L : List Bytes) (s : Bytes) : Nat :=
  (L.filter fun t => t = s).length

/-- Frequency-map fold: bump the counter of each element in turn. -/
def countFold (L : List Bytes) (m : List (Bytes × Nat)) : List (Bytes × Nat) :=
  L.foldl (fun m s => abump m s 1) m

/-- Substring lengths the planner enumerates: `2..=effective_max_len`. -/
def planLens (eff : Nat) : List Nat := (List.range (eff - 1)).map (· + 2)

/-- Substrings of one length enumerated by the planner loop. -/
def innerSubs (data : Bytes) (len : Nat) : List Bytes :=
  (List.range (data.length - len)).map fun i => (data.drop i).take len

/-- Full substring enumeration of the planner's counting loops. -/
def enumSubs (data : Bytes) (eff : Nat) : List Bytes :=
  (planLens eff).flatMap (innerSubs data)

/-- Gain formula of the planner for a (substring, count) pair. -/
def planGain (p : Bytes × Nat) : Int :=
  (p.2 : Int) * p.1.length - (p.2 : Int) * 2

/-- Amended characterisation of `plan_symbols` for inputs the planner
counts whole (at most 1 MiB): every output symbol is a substring of
length 2..=min(max_len,16) whose gain is computed from the occurrence
count that omits the substring ending at the final byte; conversely
every such substring with positive gain appears (when at most 1000
candidates qualify); tokens start at 256; the output is sorted by
descending gain and capped at 1000. -/
def planCharacterisation (data : Bytes) (maxLen : Nat) : Prop :=
  (∀ sym ∈ plan_symbols data maxLen,
      2 ≤ sym.bytes.length ∧ sym.bytes.length ≤ min maxLen 16 ∧
      0 < countOccStrict sym.bytes data ∧
      sym.gain = (countOccStrict sym.bytes data : Int) * sym.bytes.length -
        2 * countOccStrict sym.bytes data ∧
      0 < sym.gain ∧ 256 ≤ sym.token) ∧
  ((planCandidates (planFreq data (min maxLen 16))).length ≤ 1000 →
    ∀ s : Bytes, 2 ≤ s.length → s.length ≤ min maxLen 16 →
      0 < (countOccStrict s data : Int) * s.length -
        2 * countOccStrict s data →
      ∃ sym ∈ plan_symbols data maxLen, sym.bytes = s) ∧
  (plan_symbols data maxLen).length ≤ 1000 ∧
  (plan_symbols data maxLen).Sorted fun a b => b.gain ≤ a.gain

/-! # Theorems -/

/-- Claim C1 (code bug): the round-trip invariant fails on a reachable
dictionary state.  After uploading `[0,0,0,0]` and then `[1,1,1,1]` to a
fresh server, compressing `x = [0,0,0]` and decompressing the returned
payload against the dictionary observed after `compress` returns yields
`[1,1,1]`, not `x`. -/
theorem roundtrip_fails_on_reachable_state :
    decompress rtStep3.payload rtStep3.dict = some [1, 1, 1] ∧
    decompress rtStep3.payload rtStep3.dict ≠ some [0, 0, 0] := by
  constructor
  · rfl
  · decide

/-- Claim C2 (code bug): after the insertions performed by two `compress`
calls on an unfrozen dictionary, the pair `([0,0,0], 256)` is in the
encode map while `decode[256] = [1,1,1]`, and token 256 is shared by two
distinct byte sequences — encode and decode are not inverses. -/
theorem dictionary_inverse_fails_after_compress :
    alookup rtStep2.dict.encode [0, 0, 0] = some 256 ∧
    alookup rtStep2.dict.encode [1, 1, 1] = some 256 ∧
    alookup rtStep2.dict.decode 256 ≠ some [0, 0, 0] := by
  refine ⟨rfl, rfl, ?_⟩
  decide

set_option maxRecDepth 40000 in
/-- Claim C3 (code bug): the second `freeze()` call leaves the
dictionary (hence its serialized content) unchanged, but recomputes the
content hash over the mutated `id` field and therefore returns a
different id than the first call. -/
theorem freeze_twice_changes_id :
    freezeSecond.2 = freezeFirst.2 ∧
    freezeSecond.2.serialize = freezeFirst.2.serialize ∧
    freezeSecond.1 ≠ freezeFirst.1 := by
  refine ⟨rfl, rfl, ?_⟩
  decide

/-- Claim C4, counterexample: for the empty upload, the stored
`object_hash` is not the SHA-256 of the stored compressed payload. -/
theorem object_hash_not_payload_hash :
    emptyUpload.meta.object_hash ≠ sha256 emptyUpload.payload := by
  decide

/-- Claim C4, amended: for every upload, the stored `object_hash` equals
the SHA-256 of the original plaintext — the same value as
`original_hash` — not the hash of the compressed payload. -/
theorem object_hash_is_plaintext_hash (key : String) (data : Bytes)
    (user_id : Option String) (dict : Dictionary) (store : SymbolStore)
    (now : Nat) :
    (handle_upload key data user_id dict store now).meta.object_hash =
      sha256 data ∧
    (handle_upload key data user_id dict store now).meta.original_hash =
      sha256 data :=
  ⟨rfl, rfl⟩

/-- Lengths of the actual and claimed mining prefixes differ for any
input of length 1 MiB + 1. -/
theorem mining_len_ne (x : Bytes) (hlen : x.length = 1048577) :
    miningData x ≠ claimedMiningData x := by
  have e1 : compressPlanArg x = (x.take 65536, 16) := by
    unfold compressPlanArg
    rw [hlen]
    norm_num
  have e2 : plannerSample (x.take 65536) = x.take 65536 := by
    unfold plannerSample
    rw [List.length_take, hlen]
    norm_num
  have e3 : miningData x = x.take 65536 := by
    unfold miningData
    rw [e1, e2]
  have e4 : claimedMiningData x = x.take 52428 := by
    unfold claimedMiningData
    rw [hlen]
    norm_num
  intro h
  rw [e3, e4] at h
  have hl := congrArg List.length h
  rw [List.length_take, List.length_take, hlen] at hl
  norm_num at hl

/-- Claim C6, counterexample: at input length 1 MiB + 1 the pipeline
counts over a 64 KiB prefix while the claim demands a 52428-byte prefix. -/
theorem mining_sample_differs_from_claim :
    miningData (List.replicate 1048577 0) ≠
      claimedMiningData (List.replicate 1048577 0) :=
  mining_len_ne _ (by rw [List.length_replicate])

/-- Claim C6, amended: for inputs strictly larger than 1 MiB the mining
step counts only over the prefix `min(input.len() / 10, 64 KiB)` (the
compressor samples before the planner's own `min(len/20, 256 KiB)` cut
can trigger); inputs of at most 1 MiB are counted whole. -/
theorem mining_sample_characterisation (input : Bytes) :
    (input.length > 1024 * 1024 →
      miningData input = input.take (min (input.length / 10) (64 * 1024))) ∧
    (input.length ≤ 1024 * 1024 → miningData input = input) := by
  constructor
  · intro h
    have e1 : compressPlanArg input =
        (input.take (min (input.length / 10) (64 * 1024)), 16) := by
      unfold compressPlanArg
      rw [if_pos h]
    have e2 : plannerSample (input.take (min (input.length / 10) (64 * 1024))) =
        input.take (min (input.length / 10) (64 * 1024)) := by
      unfold plannerSample
      rw [if_neg (by rw [List.length_take]; omega)]
    unfold miningData
    rw [e1, e2]
  · intro h
    have e1 : compressPlanArg input = (input, 32) := by
      unfold compressPlanArg
      rw [if_neg (by omega)]
    have e2 : plannerSample input = input := by
      unfold plannerSample
      rw [if_neg (by omega)]
    unfold miningData
    rw [e1, e2]

/-- Claim C6, witness for the amended theorem at a concrete 1 MiB + 1
input. -/
theorem mining_sample_characterisation_witness :
    (List.replicate 1048577 (0 : Nat)).length > 1024 * 1024 ∧
    miningData (List.replicate 1048577 0) =
      (List.replicate 1048577 (0 : Nat)).take
        (min ((List.replicate 1048577 (0 : Nat)).length / 10) (64 * 1024)) :=
  ⟨by rw [List.length_replicate]; norm_num,
   (mining_sample_characterisation _).1 (by rw [List.length_replicate]; norm_num)⟩

/-! ## Claim C10: ChunkStart bounds -/

/-- Claim C10 (code bug): the 12-byte all-zero ChunkStart payload passes
the `payload.len() < 12 + key_len` guard (key_len = 0) but the
chunk-count read at offsets `12+key_len..15+key_len` is out of bounds,
so parsing panics (`none`). -/
theorem chunkstart_guard_passes_but_parse_panics :
    12 + u32ofBytes 0 0 0 0 ≤ (List.replicate 12 (0 : Nat)).length ∧
    parseChunkStart (List.replicate 12 0) = none := by
  exact ⟨by decide, rfl⟩

/-! ## Association-list lemmas shared by the storage proofs -/

theorem alookup_ainsert_self {α β : Type} [DecidableEq α] (m : List (α × β))
    (k : α) (v : β) : alookup (ainsert m k v) k = some v := by
  induction m with
  | nil => simp [ainsert, alookup]
  | cons p rest ih =>
    by_cases h : p.1 = k
    · simp [ainsert, h, alookup]
    · simpa [ainsert, h, alookup] using ih

theorem alookup_ainsert_ne {α β : Type} [DecidableEq α] (m : List (α × β))
    (k k' : α) (v : β) (hne : k ≠ k') :
    alookup (ainsert m k v) k' = alookup m k' := by
  induction m with
  | nil => simp [ainsert, alookup, hne]
  | cons p rest ih =>
    by_cases h : p.1 = k
    · have h' : p.1 ≠ k' := by rw [h]; exact hne
      simp [ainsert, h, alookup, hne, h']
    · by_cases h2 : p.1 = k'
      · simp [ainsert, h, alookup, h2, Ne.symm hne]
      · simpa [ainsert, h, alookup, h2] using ih

theorem ainsert_eq_append_of_alookup_none {α β : Type} [DecidableEq α]
    (m : List (α × β)) (k : α) (v : β) (h : alookup m k = none) :
    ainsert m k v = m ++ [(k, v)] := by
  induction m with
  | nil => simp [ainsert]
  | cons p rest ih =>
    by_cases hp : p.1 = k
    · simp [alookup, hp] at h
    · simp only [alookup, hp, if_neg] at h
      simp [ainsert, hp, ih h]

theorem alookup_mem {α β : Type} [DecidableEq α] {m : List (α × β)} {k : α}
    {v : β} (h : alookup m k = some v) : (k, v) ∈ m := by
  induction m with
  | nil => simp [alookup] at h
  | cons p rest ih =>
    obtain ⟨a, b⟩ := p
    by_cases hp : a = k
    · simp only [alookup, hp, if_pos] at h
      injection h with hbv
      subst hp
      subst hbv
      exact List.mem_cons_self _ _
    · simp only [alookup, hp, if_neg, reduceIte] at h
      exact List.mem_cons_of_mem _ (ih h)

theorem alookup_of_mem_nodup {α β : Type} [DecidableEq α] {m : List (α × β)}
    {k : α} {v : β} (hnd : (akeys m).Nodup) (h : (k, v) ∈ m) :
    alookup m k = some v := by
  induction m with
  | nil => simp at h
  | cons p rest ih =>
    simp only [akeys, List.map_cons, List.nodup_cons] at hnd
    rcases List.mem_cons.mp h with h1 | h2
    · simp [alookup, ← h1]
    · have hk : p.1 ≠ k := by
        intro he
        exact hnd.1 (he ▸ List.mem_map_of_mem Prod.fst h2)
      simp only [alookup, hk, if_neg, reduceIte]
      exact ih hnd.2 h2

theorem mem_akeys_ainsert {α β : Type} [DecidableEq α] (m : List (α × β))
    (k a : α) (v : β) :
    a ∈ akeys (ainsert m k v) ↔ a ∈ akeys m ∨ a = k := by
  induction m with
  | nil => simp [ainsert, akeys]
  | cons p rest ih =>
    by_cases hp : p.1 = k
    · simp only [ainsert, hp, if_pos, akeys, List.map_cons]
      constructor
      · intro h
        rcases List.mem_cons.mp h with h | h
        · exact Or.inr h
        · exact Or.inl (List.mem_cons_of_mem _ h)
      · intro h
        rcases h with h | h
        · rcases List.mem_cons.mp h with h | h
          · exact List.mem_cons.mpr (Or.inl (hp ▸ h))
          · exact List.mem_cons_of_mem _ h
        · exact List.mem_cons.mpr (Or.inl h)
    · simp only [ainsert, hp, if_neg, reduceIte, akeys, List.map_cons]
      simp only [akeys] at ih
      constructor
      · intro h
        rcases List.mem_cons.mp h with h | h
        · exact Or.inl (List.mem_cons.mpr (Or.inl h))
        · rcases (ih).mp h with h | h
          · exact Or.inl (List.mem_cons_of_mem _ h)
          · exact Or.inr h
      · intro h
        rcases h with h | h
        · rcases List.mem_cons.mp h with h | h
          · exact List.mem_cons.mpr (Or.inl h)
          · exact List.mem_cons_of_mem _ ((ih).mpr (Or.inl h))
        · exact List.mem_cons_of_mem _ ((ih).mpr (Or.inr h))

theorem akeys_ainsert_nodup {α β : Type} [DecidableEq α] (m : List (α × β))
    (k : α) (v : β) (hnd : (akeys m).Nodup) :
    (akeys (ainsert m k v)).Nodup := by
  induction m with
  | nil => simp [ainsert, akeys]
  | cons p rest ih =>
    simp only [akeys, List.map_cons, List.nodup_cons] at hnd
    by_cases hp : p.1 = k
    · simp only [ainsert, hp, if_pos, akeys, List.map_cons, List.nodup_cons]
      exact ⟨hp ▸ hnd.1, hnd.2⟩
    · simp only [ainsert, hp, if_neg, reduceIte, akeys, List.map_cons,
        List.nodup_cons]
      refine ⟨?_, ih hnd.2⟩
      intro hmem
      rcases (mem_akeys_ainsert rest k p.1 v).mp hmem with h | h
      · exact hnd.1 h
      · exact hp h

/-- Claim C7, counterexample: the second `store_symbol` call for an
existing hash rewrites the blob file (the stored record changes, its
`usage_count` is incremented), so the file is not write-once — though
the stored bytes do remain the originally written `[1]`. -/
theorem store_symbol_rewrites_file :
    alookup storeTwice.symbols "h" ≠ alookup storeOnce.symbols "h" ∧
    (storeTwice.load_symbol "h").map StoredSymbol.usage_count = some 2 ∧
    (storeTwice.load_symbol "h").map StoredSymbol.bytes = some [1] := by
  refine ⟨?_, rfl, rfl⟩
  decide

/-- One `store_symbol` call preserves every field except `usage_count`
of any record already on disk. -/
theorem store_symbol_step_preserves (st : SymbolStore) (h : String)
    (r : StoredSymbol) (h2 : String) (b : Bytes) (t : Nat)
    (hr : st.load_symbol h = some r) :
    ∃ r2, (st.store_symbol h2 b t).load_symbol h = some r2 ∧
      r2.hash = r.hash ∧ r2.bytes = r.bytes ∧ r2.size = r.size ∧
      r2.first_seen = r.first_seen ∧ r2.content_hash = r.content_hash := by
  by_cases he : h2 = h
  · subst he
    unfold SymbolStore.store_symbol
    unfold SymbolStore.load_symbol at hr
    rw [hr]
    refine ⟨{ r with usage_count := r.usage_count + 1 }, ?_, rfl, rfl, rfl, rfl, rfl⟩
    simpa [SymbolStore.load_symbol] using alookup_ainsert_self st.symbols h2 _
  · unfold SymbolStore.store_symbol
    unfold SymbolStore.load_symbol at hr
    refine ⟨r, ?_, rfl, rfl, rfl, rfl, rfl⟩
    match hlk : alookup st.symbols h2 with
    | none =>
      simpa [SymbolStore.load_symbol, hlk]
        using (alookup_ainsert_ne st.symbols h2 h _ he).trans hr
    | some sym =>
      simpa [SymbolStore.load_symbol, hlk]
        using (alookup_ainsert_ne st.symbols h2 h _ he).trans hr

/-- Claim C7, amended: after `store_symbol(h, b)` first creates the
blob, any further sequence of `store_symbol` calls (same or different
hashes and bytes) may rewrite the file, but only its `usage_count`
changes: `hash`, `bytes`, `size`, `first_seen`, `content_hash` are all
preserved, and `load_symbol(h).bytes` still returns the originally
written `b`. -/
theorem store_symbol_preserves_original_bytes (st : SymbolStore) (h : String)
    (b : Bytes) (now : Nat) (ops : List (String × Bytes × Nat))
    (habsent : st.load_symbol h = none) :
    ∃ r2, (applyStores (st.store_symbol h b now) ops).load_symbol h = some r2 ∧
      r2.hash = h ∧ r2.bytes = b ∧ r2.size = b.length ∧
      r2.first_seen = now ∧ r2.content_hash = sha256 b := by
  have hfirst : (st.store_symbol h b now).load_symbol h =
      some { hash := h, bytes := b, size := b.length, first_seen := now,
             usage_count := 1, content_hash := sha256 b } := by
    unfold SymbolStore.store_symbol
    unfold SymbolStore.load_symbol at habsent
    rw [habsent]
    simpa [SymbolStore.load_symbol] using alookup_ainsert_self st.symbols h _
  suffices hgen : ∀ (ops : List (String × Bytes × Nat)) (st1 : SymbolStore)
      (r : StoredSymbol), st1.load_symbol h = some r →
      ∃ r2, (applyStores st1 ops).load_symbol h = some r2 ∧
        r2.hash = r.hash ∧ r2.bytes = r.bytes ∧ r2.size = r.size ∧
        r2.first_seen = r.first_seen ∧ r2.content_hash = r.content_hash by
    obtain ⟨r2, hl, e1, e2, e3, e4, e5⟩ := hgen ops _ _ hfirst
    exact ⟨r2, hl, e1, e2, e3, e4, e5⟩
  intro ops
  induction ops with
  | nil => exact fun st1 r hr => ⟨r, hr, rfl, rfl, rfl, rfl, rfl⟩
  | cons op rest ih =>
    intro st1 r hr
    obtain ⟨r1, hl1, e1, e2, e3, e4, e5⟩ :=
      store_symbol_step_preserves st1 h r op.1 op.2.1 op.2.2 hr
    obtain ⟨r2, hl2, f1, f2, f3, f4, f5⟩ := ih _ _ hl1
    exact ⟨r2, hl2, f1.trans e1, f2.trans e2, f3.trans e3, f4.trans e4,
      f5.trans e5⟩

/-- Claim C7, witness for the amended theorem: a fresh store, first
write of `"h"` with `[1]`, then two later calls including a clashing
write `("h", [2])`. -/
theorem store_symbol_preserves_original_bytes_witness :
    SymbolStore.init.load_symbol "h" = none ∧
    ∃ r2, (applyStores (SymbolStore.init.store_symbol "h" [1] 0)
        [("h", [2], 1), ("g", [3], 2)]).load_symbol "h" = some r2 ∧
      r2.hash = "h" ∧ r2.bytes = [1] ∧ r2.size = ([1] : Bytes).length ∧
      r2.first_seen = 0 ∧ r2.content_hash = sha256 [1] :=
  ⟨rfl, store_symbol_preserves_original_bytes SymbolStore.init "h" [1] 0
    [("h", [2], 1), ("g", [3], 2)] rfl⟩

theorem sumValues_ainsert (m : List (String × Nat)) (k : String) (v : Nat) :
    sumValues (ainsert m k v) + (alookup m k).getD 0 = sumValues m + v := by
  induction m with
  | nil => simp [ainsert, alookup, sumValues]
  | cons p rest ih =>
    by_cases hp : p.1 = k
    · simp [ainsert, hp, alookup, sumValues]
      omega
    · simp only [ainsert, hp, if_neg, reduceIte, alookup, sumValues,
        List.map_cons, List.sum_cons]
      simp only [sumValues] at ih
      omega

theorem alookup_le_sumValues (m : List (String × Nat)) (k : String) :
    (alookup m k).getD 0 ≤ sumValues m := by
  induction m with
  | nil => simp [alookup, sumValues]
  | cons p rest ih =>
    by_cases hp : p.1 = k
    · simp [alookup, hp, sumValues]
    · simp only [alookup, hp, if_neg, reduceIte, sumValues, List.map_cons,
        List.sum_cons]
      simp only [sumValues] at ih
      omega

/-- One `add_usage` update preserves the usage-consistency invariant,
including updates that replace a previous count for the same object. -/
theorem addUsageStep_invariant (size : Nat) (u : SymbolUsage)
    (key : String) (count : Nat) (hinv : usageInvariant size u) :
    usageInvariant size (addUsageStep u key size count) := by
  obtain ⟨h1, _⟩ := hinv
  have hsum := sumValues_ainsert u.objects key count
  have hle := alookup_le_sumValues u.objects key
  constructor
  · simp only [addUsageStep]
    omega
  · rfl

/-- The store-level fold computes the record-level fold. -/
theorem storedUsage_eq_foldl (h : String) (size : Nat)
    (updates : List (String × Nat)) :
    storedUsage h size updates =
      updates.foldl (fun u kc => addUsageStep u kc.1 size kc.2)
        (SymbolUsage.initFor h) := by
  suffices hgen : ∀ (updates : List (String × Nat)) (st : SymbolStore),
      (alookup ((updates.foldl (fun s kc => s.add_usage h kc.1 size kc.2)
          st)).usages h).getD (SymbolUsage.initFor h) =
        updates.foldl (fun u kc => addUsageStep u kc.1 size kc.2)
          ((alookup st.usages h).getD (SymbolUsage.initFor h)) by
    simpa [SymbolStore.init, alookup] using hgen updates SymbolStore.init
  intro updates
  induction updates with
  | nil => intro st; rfl
  | cons kc rest ih =>
    intro st
    simp only [List.foldl_cons]
    rw [ih]
    simp [SymbolStore.add_usage, alookup_ainsert_self]

/-- Claim C8: after any sequence of `add_usage` updates for a symbol
(each carrying the symbol's byte size), the stored `SymbolUsage` record
satisfies `total_occurrences = sum(objects.values())` and
`total_bytes_contributed = total_occurrences * size`; the invariant is
preserved by every update, including replacements for the same
`(symbol, object)` pair. -/
theorem add_usage_invariant (h : String) (size : Nat)
    (updates : List (String × Nat)) :
    usageInvariant size (storedUsage h size updates) := by
  rw [storedUsage_eq_foldl]
  induction updates using List.reverseRecOn with
  | nil =>
    constructor <;> simp [SymbolUsage.initFor, sumValues, usageInvariant]
  | append_singleton rest kc ih =>
    rw [List.foldl_append]
    exact addUsageStep_invariant size _ kc.1 kc.2 ih

/-! ## Claim C9: chunked reassembly is arrival-order independent -/

theorem gatherChunks_ok (u : ChunkedUpload) (chunks : List Bytes)
    (hn : u.chunk_count = chunks.length)
    (hlk : ∀ i, i < chunks.length →
      alookup u.received_chunks i = some (chunks.getD i [])) :
    gatherChunks u = .ok chunks.flatten := by
  have key : ∀ j, j ≤ chunks.length →
      (List.range j).foldl
        (fun (acc : Except String Bytes) i =>
          acc.bind fun d =>
            match alookup u.received_chunks i with
            | some chunk => Except.ok (d ++ chunk)
            | none => Except.error "Missing chunk")
        (Except.ok []) = Except.ok ((chunks.take j).flatten) := by
    intro j
    induction j with
    | zero => intro _; simp
    | succ j ih =>
      intro hj
      rw [List.range_succ, List.foldl_append, ih (by omega)]
      have hjlt : j < chunks.length := by omega
      simp only [List.foldl_cons, List.foldl_nil, hlk j hjlt, Except.bind]
      rw [List.take_succ]
      have hg : chunks[j]? = some (chunks.getD j []) := by
        rw [List.getElem?_eq_getElem hjlt]
        simp [List.getD, List.getElem?_eq_getElem hjlt]
      rw [hg]
      simp
  unfold gatherChunks
  rw [hn, key chunks.length (le_refl _), List.take_length]

theorem runChunkData_cons (u : ChunkedUpload) (i : Nat) (d : Bytes)
    (rest : List (Nat × Bytes)) :
    runChunkData u ((i, d) :: rest) =
      if (ainsert u.received_chunks i d).length = u.chunk_count then
        match handle_chunked_complete
            { u with received_chunks := ainsert u.received_chunks i d } with
        | .error e => .error e
        | .ok bytes =>
          match rest with
          | [] => .ok (some bytes)
          | _ => .error "Unknown chunked upload"
      else runChunkData
        { u with received_chunks := ainsert u.received_chunks i d } rest := rfl

theorem runChunkData_eq (frames : List (Nat × Bytes)) :
    ∀ (u : ChunkedUpload),
    (akeys frames).Nodup →
    (∀ p ∈ frames, alookup u.received_chunks p.1 = none) →
    u.received_chunks.length + frames.length = u.chunk_count →
    frames ≠ [] →
    runChunkData u frames =
      (handle_chunked_complete
        { u with received_chunks := u.received_chunks ++ frames }).map some := by
  induction frames with
  | nil => intro u _ _ _ hne; exact absurd rfl hne
  | cons f rest ih =>
    intro u hnd hfresh hlen _
    obtain ⟨i, d⟩ := f
    have hfi : alookup u.received_chunks i = none := hfresh (i, d) (by simp)
    have hins : ainsert u.received_chunks i d = u.received_chunks ++ [(i, d)] :=
      ainsert_eq_append_of_alookup_none _ _ _ hfi
    simp only [akeys, List.map_cons, List.nodup_cons] at hnd
    rw [runChunkData_cons]
    cases rest with
    | nil =>
      have hcc : (ainsert u.received_chunks i d).length = u.chunk_count := by
        rw [hins, List.length_append]
        simp only [List.length_cons, List.length_nil] at hlen ⊢
        omega
      rw [if_pos hcc, hins]
      cases hres : handle_chunked_complete
          { u with received_chunks := u.received_chunks ++ [(i, d)] } with
      | error e => rfl
      | ok bytes => rfl
    | cons f2 rest2 =>
      have hcc : ¬(ainsert u.received_chunks i d).length = u.chunk_count := by
        rw [hins, List.length_append]
        simp only [List.length_cons, List.length_nil] at hlen ⊢
        omega
      rw [if_neg hcc]
      have hstep := ih { u with received_chunks := ainsert u.received_chunks i d }
        hnd.2
        (by
          intro p hp
          have hpi : p.1 ≠ i := by
            intro he
            exact hnd.1 (he ▸ List.mem_map_of_mem Prod.fst hp)
          show alookup (ainsert u.received_chunks i d) p.1 = none
          rw [alookup_ainsert_ne _ _ _ _ (Ne.symm hpi)]
          exact hfresh p (List.mem_cons_of_mem _ hp))
        (by
          show (ainsert u.received_chunks i d).length + _ = u.chunk_count
          rw [hins, List.length_append]
          simp only [List.length_cons, List.length_nil] at hlen ⊢
          omega)
        (by simp)
      rw [hstep]
      simp [hins, List.append_assoc]

theorem alookup_eq_of_perm {α β : Type} [DecidableEq α]
    {l1 l2 : List (α × β)} (hp : l1.Perm l2) :
    (akeys l1).Nodup → ∀ k, alookup l1 k = alookup l2 k := by
  induction hp with
  | nil => intro _ k; rfl
  | cons x p ih =>
    intro hnd k
    obtain ⟨a, b⟩ := x
    simp only [akeys, List.map_cons, List.nodup_cons] at hnd
    by_cases ha : a = k
    · simp [alookup, ha]
    · simp only [alookup, ha, if_neg, reduceIte]
      exact ih hnd.2 k
  | swap x y l =>
    intro hnd k
    obtain ⟨a, b⟩ := x
    obtain ⟨c, d⟩ := y
    simp only [akeys, List.map_cons, List.nodup_cons, List.mem_cons] at hnd
    have hca : c ≠ a := fun h => hnd.1 (Or.inl h)
    by_cases h1 : c = k
    · have h2 : a ≠ k := fun h => hca (h1.trans h.symm)
      simp [alookup, h1, h2]
    · by_cases h2 : a = k
      · simp [alookup, h1, h2]
      · simp [alookup, h1, h2]
  | trans p1 _ ih1 ih2 =>
    intro hnd k
    have hnd2 := ((p1.map Prod.fst).nodup_iff).mp hnd
    exact (ih1 hnd k).trans (ih2 hnd2 k)

theorem alookup_range_zip (chunks : List Bytes) :
    ∀ (s i : Nat), i < chunks.length →
      alookup ((List.range' s chunks.length).zip chunks) (s + i) =
        some (chunks.getD i []) := by
  induction chunks with
  | nil => intro s i hi; simp at hi
  | cons c rest ih =>
    intro s i hi
    rw [List.length_cons, List.range'_succ]
    match i with
    | 0 => simp [List.zip_cons_cons, alookup]
    | j + 1 =>
      have hs : s ≠ s + (j + 1) := by omega
      simp only [List.zip_cons_cons, alookup, hs, if_neg, reduceIte]
      have hih := ih (s + 1) j (by simpa using hi)
      rw [show s + (j + 1) = s + 1 + j by omega]
      simpa using hih

theorem alookup_zip_range (chunks : List Bytes) (i : Nat)
    (hi : i < chunks.length) :
    alookup ((List.range chunks.length).zip chunks) i =
      some (chunks.getD i []) := by
  have := alookup_range_zip chunks 0 i hi
  simpa [List.range_eq_range'] using this

/-- Claim C9: delivering the `ChunkData` frames of a fixed assignment of
chunk bytes to indices `0..n-1` in any permutation of arrival order
reassembles exactly the chunks concatenated in increasing index order. -/
theorem chunked_reassembly_any_order (chunks : List Bytes)
    (frames : List (Nat × Bytes)) (key : String) (uid : Option String)
    (hperm : frames.Perm ((List.range chunks.length).zip chunks))
    (hne : chunks ≠ []) :
    runChunkData
      (ChunkedUpload.start key chunks.flatten.length chunks.length uid) frames =
      .ok (some chunks.flatten) := by
  have hmapfst : ((List.range chunks.length).zip chunks).map Prod.fst =
      List.range chunks.length :=
    List.map_fst_zip _ _ (by simp)
  have hnd : (akeys frames).Nodup := by
    refine ((hperm.map Prod.fst).nodup_iff).mpr ?_
    rw [hmapfst]
    exact List.nodup_range _
  have hflen : frames.length = chunks.length := by
    rw [hperm.length_eq, List.length_zip, List.length_range, Nat.min_self]
  have hfne : frames ≠ [] := by
    intro h
    rw [h] at hflen
    exact hne (List.eq_nil_of_length_eq_zero hflen.symm)
  have hrun := runChunkData_eq frames
    (ChunkedUpload.start key chunks.flatten.length chunks.length uid)
    hnd (by intro p _; rfl) (by simpa [ChunkedUpload.start] using hflen) hfne
  rw [hrun]
  have hgather : gatherChunks
      { ChunkedUpload.start key chunks.flatten.length chunks.length uid with
        received_chunks := [] ++ frames } = .ok chunks.flatten := by
    refine gatherChunks_ok _ chunks rfl ?_
    intro i hi
    have hpl := alookup_eq_of_perm hperm hnd i
    simp only [List.nil_append]
    rw [hpl, alookup_zip_range chunks i hi]
  have : ({ ChunkedUpload.start key chunks.flatten.length chunks.length uid with
      received_chunks :=
        (ChunkedUpload.start key chunks.flatten.length chunks.length
          uid).received_chunks ++ frames } : ChunkedUpload) =
      { ChunkedUpload.start key chunks.flatten.length chunks.length uid with
        received_chunks := [] ++ frames } := rfl
  rw [this]
  simp only [handle_chunked_complete, hgather, Except.bind]
  simp [ChunkedUpload.start, Except.map]

/-- Claim C9, witness: two one-byte chunks delivered in reversed order
reassemble to the in-order concatenation. -/
theorem chunked_reassembly_any_order_witness :
    ([((1 : Nat), ([2] : Bytes)), (0, [1])]).Perm
      ((List.range ([[1], [2]] : List Bytes).length).zip [[1], [2]]) ∧
    ([[1], [2]] : List Bytes) ≠ [] ∧
    runChunkData
      (ChunkedUpload.start "k" ([[1], [2]] : List Bytes).flatten.length
        ([[1], [2]] : List Bytes).length none) [(1, [2]), (0, [1])] =
      .ok (some (([[1], [2]] : List Bytes).flatten)) :=
  ⟨by decide, by decide,
   chunked_reassembly_any_order [[1], [2]] [(1, [2]), (0, [1])] "k" none
     (by decide) (by decide)⟩

/-- Claim C5, counterexample: on `data = [0,1,2]` with `max_len = 16`,
the substring `[0,1,2]` occurs once and has claimed gain
`1*3 - 2*1 = 1 > 0`, yet `plan_symbols` returns the empty list — the
loop bound `0..len.saturating_sub(sub_len)` skips the only occurrence. -/
theorem planner_misses_final_substring :
    plan_symbols [0, 1, 2] 16 = [] ∧
    2 ≤ ([0, 1, 2] : Bytes).length ∧ ([0, 1, 2] : Bytes).length ≤ 16 ∧
    0 < (countOcc [0, 1, 2] [0, 1, 2] : Int) * ([0, 1, 2] : Bytes).length -
        2 * countOcc [0, 1, 2] [0, 1, 2] := by
  refine ⟨rfl, by decide, by decide, by decide⟩

theorem alookup_abump_self {α : Type} [DecidableEq α] (m : List (α × Nat))
    (k : α) (d : Nat) :
    alookup (abump m k d) k = some ((alookup m k).getD 0 + d) := by
  unfold abump
  cases h : alookup m k with
  | none => simp [h, alookup_ainsert_self]
  | some v => simp [h, alookup_ainsert_self]

theorem alookup_abump_ne {α : Type} [DecidableEq α] (m : List (α × Nat))
    (k k' : α) (d : Nat) (hne : k ≠ k') :
    alookup (abump m k d) k' = alookup m k' := by
  unfold abump
  cases h : alookup m k with
  | none => simp [alookup_ainsert_ne _ _ _ _ hne]
  | some v => simp [alookup_ainsert_ne _ _ _ _ hne]

theorem akeys_abump_nodup {α : Type} [DecidableEq α] (m : List (α × Nat))
    (k : α) (d : Nat) (hnd : (akeys m).Nodup) :
    (akeys (abump m k d)).Nodup := by
  unfold abump
  cases alookup m k with
  | none => exact akeys_ainsert_nodup m k d hnd
  | some v => exact akeys_ainsert_nodup m k (v + d) hnd

theorem occFreq_nil (s : Bytes) : occFreq [] s = 0 := rfl

theorem occFreq_cons (t : Bytes) (L : List Bytes) (s : Bytes) :
    occFreq (t :: L) s = (if t = s then 1 else 0) + occFreq L s := by
  by_cases h : t = s
  · simp [occFreq, List.filter_cons, h]
    omega
  · simp [occFreq, List.filter_cons, h]

theorem countFold_lookup_some (L : List Bytes) :
    ∀ (m : List (Bytes × Nat)) (s : Bytes) (v : Nat),
    alookup m s = some v →
    alookup (countFold L m) s = some (v + occFreq L s) := by
  induction L with
  | nil => intro m s v h; simpa [countFold, occFreq] using h
  | cons t rest ih =>
    intro m s v h
    by_cases hts : t = s
    · subst hts
      have hb := alookup_abump_self m t 1
      rw [h] at hb
      have := ih (abump m t 1) t (v + 1) (by simpa using hb)
      rw [show countFold (t :: rest) m = countFold rest (abump m t 1) from rfl,
        this, occFreq_cons]
      exact congrArg some (by simp; omega)
    · have hb := (alookup_abump_ne m t s 1 hts).trans h
      have := ih (abump m t 1) s v hb
      rw [show countFold (t :: rest) m = countFold rest (abump m t 1) from rfl,
        this, occFreq_cons]
      simp [hts]

theorem countFold_lookup_none (L : List Bytes) :
    ∀ (m : List (Bytes × Nat)) (s : Bytes),
    alookup m s = none → s ∉ L →
    alookup (countFold L m) s = none := by
  induction L with
  | nil => intro m s h _; simpa [countFold] using h
  | cons t rest ih =>
    intro m s h hmem
    have hts : t ≠ s := fun he => hmem (he ▸ List.mem_cons_self t rest)
    have hb := (alookup_abump_ne m t s 1 hts).trans h
    exact ih (abump m t 1) s hb (fun hc => hmem (List.mem_cons_of_mem _ hc))

theorem countFold_lookup_mem (L : List Bytes) :
    ∀ (m : List (Bytes × Nat)) (s : Bytes),
    alookup m s = none → s ∈ L →
    alookup (countFold L m) s = some (occFreq L s) := by
  induction L with
  | nil => intro m s _ h; simp at h
  | cons t rest ih =>
    intro m s h hmem
    by_cases hts : t = s
    · subst hts
      have hb := alookup_abump_self m t 1
      rw [h] at hb
      have hsome := countFold_lookup_some rest (abump m t 1) t 1 (by simpa using hb)
      rw [show countFold (t :: rest) m = countFold rest (abump m t 1) from rfl,
        hsome, occFreq_cons]
      exact congrArg some (by simp)
    · have hb := (alookup_abump_ne m t s 1 hts).trans h
      have hsmem : s ∈ rest := by
        rcases List.mem_cons.mp hmem with he | hr
        · exact absurd he.symm hts
        · exact hr
      have := ih (abump m t 1) s hb hsmem
      rw [show countFold (t :: rest) m = countFold rest (abump m t 1) from rfl,
        this, occFreq_cons]
      simp [hts]

theorem countFold_keys_nodup (L : List Bytes) :
    ∀ (m : List (Bytes × Nat)), (akeys m).Nodup →
    (akeys (countFold L m)).Nodup := by
  induction L with
  | nil => intro m h; exact h
  | cons t rest ih =>
    intro m h
    exact ih (abump m t 1) (akeys_abump_nodup m t 1 h)

theorem foldl_flatMap {α β γ : Type} (l : List α) (g : α → List β)
    (f : γ → β → γ) (init : γ) :
    (l.flatMap g).foldl f init =
      l.foldl (fun acc x => (g x).foldl f acc) init := by
  induction l generalizing init with
  | nil => rfl
  | cons x xs ih => simp [List.foldl_append, ih]

theorem planFreq_eq_countFold (data : Bytes) (eff : Nat) :
    planFreq data eff = countFold (enumSubs data eff) [] := by
  unfold planFreq countFold enumSubs innerSubs planLens
  rw [foldl_flatMap]
  congr 1
  funext acc len
  rw [List.foldl_map]

theorem occFreq_append (L1 L2 : List Bytes) (s : Bytes) :
    occFreq (L1 ++ L2) s = occFreq L1 s + occFreq L2 s := by
  simp [occFreq, List.filter_append]

theorem occFreq_eq_zero (L : List Bytes) (s : Bytes)
    (h : ∀ t ∈ L, t ≠ s) : occFreq L s = 0 := by
  simp only [occFreq, List.length_eq_zero, List.filter_eq_nil_iff]
  intro t ht
  simpa using h t ht

theorem occFreq_pos (L : List Bytes) (s : Bytes) (h : s ∈ L) :
    0 < occFreq L s := by
  simp only [occFreq]
  have : s ∈ L.filter fun t => t = s := List.mem_filter.mpr ⟨h, by simp⟩
  exact List.length_pos.mpr (List.ne_nil_of_mem this)

theorem mem_innerSubs_length (data : Bytes) (len : Nat) (t : Bytes)
    (h : t ∈ innerSubs data len) : t.length = len := by
  obtain ⟨i, hi, rfl⟩ := List.mem_map.mp h
  have hilt := List.mem_range.mp hi
  simp only [List.length_take, List.length_drop]
  omega

theorem occFreq_innerSubs_self (data s : Bytes) :
    occFreq (innerSubs data s.length) s = countOccStrict s data := by
  unfold innerSubs countOccStrict occFreq
  rw [← List.countP_eq_length_filter, ← List.countP_eq_length_filter,
    List.countP_map]
  rfl

theorem occFreq_innerSubs_ne (data s : Bytes) (len : Nat)
    (hne : len ≠ s.length) : occFreq (innerSubs data len) s = 0 :=
  occFreq_eq_zero _ _ fun t ht he =>
    hne ((he ▸ mem_innerSubs_length data len t ht).symm ▸ rfl)

theorem occFreq_flatMap (l : List Nat) (g : Nat → List Bytes) (s : Bytes) :
    occFreq (l.flatMap g) s = (l.map fun x => occFreq (g x) s).sum := by
  induction l with
  | nil => rfl
  | cons x xs ih => simp [List.flatMap_cons, occFreq_append, ih]

theorem sum_map_eq_of_unique {α : Type} [DecidableEq α] (l : List α)
    (g : α → Nat) (a : α) (hnd : l.Nodup) (hmem : a ∈ l)
    (hz : ∀ b ∈ l, b ≠ a → g b = 0) : (l.map g).sum = g a := by
  induction l with
  | nil => simp at hmem
  | cons x xs ih =>
    simp only [List.nodup_cons] at hnd
    rcases List.mem_cons.mp hmem with rfl | hmem2
    · have : (xs.map g).sum = 0 := by
        rw [List.sum_eq_zero]
        intro y hy
        obtain ⟨b, hb, rfl⟩ := List.mem_map.mp hy
        exact hz b (List.mem_cons_of_mem _ hb) (fun he => hnd.1 (he ▸ hb))
      simp [this]
    · have hxa : x ≠ a := fun he => hnd.1 (he ▸ hmem2)
      simp only [List.map_cons, List.sum_cons,
        hz x (List.mem_cons_self _ _) hxa, Nat.zero_add]
      exact ih hnd.2 hmem2 fun b hb => hz b (List.mem_cons_of_mem _ hb)

theorem planLens_nodup (eff : Nat) : (planLens eff).Nodup :=
  (List.nodup_range _).map fun a b h => by omega

theorem mem_planLens (eff x : Nat) :
    x ∈ planLens eff ↔ 2 ≤ x ∧ x ≤ eff := by
  simp only [planLens, List.mem_map, List.mem_range]
  constructor
  · rintro ⟨j, hj, rfl⟩; omega
  · intro ⟨h2, hle⟩; exact ⟨x - 2, by omega, by omega⟩

theorem occFreq_enumSubs (data s : Bytes) (eff : Nat)
    (h2 : 2 ≤ s.length) (hle : s.length ≤ eff) :
    occFreq (enumSubs data eff) s = countOccStrict s data := by
  unfold enumSubs
  rw [occFreq_flatMap]
  rw [sum_map_eq_of_unique (planLens eff) _ s.length (planLens_nodup eff)
    ((mem_planLens eff s.length).mpr ⟨h2, hle⟩)
    (fun b _ hb => occFreq_innerSubs_ne data s b hb)]
  exact occFreq_innerSubs_self data s

theorem mem_enumSubs_of_countOccStrict_pos (data s : Bytes) (eff : Nat)
    (h2 : 2 ≤ s.length) (hle : s.length ≤ eff)
    (hpos : 0 < countOccStrict s data) : s ∈ enumSubs data eff := by
  unfold countOccStrict at hpos
  rw [List.length_pos] at hpos
  obtain ⟨i, hi⟩ := List.exists_mem_of_ne_nil _ hpos
  have := List.mem_filter.mp hi
  refine List.mem_flatMap.mpr ⟨s.length, (mem_planLens eff s.length).mpr ⟨h2, hle⟩, ?_⟩
  unfold innerSubs
  refine List.mem_map.mpr ⟨i, this.1, ?_⟩
  simpa using this.2

theorem mem_enumSubs_shape (data : Bytes) (eff : Nat) (s : Bytes)
    (h : s ∈ enumSubs data eff) :
    2 ≤ s.length ∧ s.length ≤ eff ∧ 0 < countOccStrict s data := by
  obtain ⟨len, hlen, hinner⟩ := List.mem_flatMap.mp h
  have hl := mem_innerSubs_length data len s hinner
  obtain ⟨hge, hlef⟩ := (mem_planLens eff len).mp hlen
  refine ⟨hl ▸ hge, hl ▸ hlef, ?_⟩
  have : s ∈ innerSubs data s.length := hl ▸ hinner
  have hp := occFreq_pos _ _ this
  rwa [occFreq_innerSubs_self] at hp

theorem planFreq_lookup (data s : Bytes) (eff : Nat)
    (h2 : 2 ≤ s.length) (hle : s.length ≤ eff)
    (hpos : 0 < countOccStrict s data) :
    alookup (planFreq data eff) s = some (countOccStrict s data) := by
  rw [planFreq_eq_countFold]
  rw [countFold_lookup_mem _ [] s rfl
    (mem_enumSubs_of_countOccStrict_pos data s eff h2 hle hpos)]
  rw [occFreq_enumSubs data s eff h2 hle]

theorem planFreq_keys_nodup (data : Bytes) (eff : Nat) :
    (akeys (planFreq data eff)).Nodup := by
  rw [planFreq_eq_countFold]
  exact countFold_keys_nodup _ [] (by simp [akeys])

theorem planFreq_mem_char (data : Bytes) (eff : Nat) (p : Bytes × Nat)
    (hp : p ∈ planFreq data eff) :
    2 ≤ p.1.length ∧ p.1.length ≤ eff ∧ p.2 = countOccStrict p.1 data ∧
      0 < p.2 := by
  have hlk := alookup_of_mem_nodup (planFreq_keys_nodup data eff) hp
  rw [planFreq_eq_countFold] at hlk
  by_cases hmem : p.1 ∈ enumSubs data eff
  · have := countFold_lookup_mem _ [] p.1 rfl hmem
    rw [this] at hlk
    obtain ⟨h2, hle, hpos⟩ := mem_enumSubs_shape data eff p.1 hmem
    have hocc := occFreq_enumSubs data p.1 eff h2 hle
    have hv : p.2 = occFreq (enumSubs data eff) p.1 :=
      (Option.some.inj hlk).symm
    exact ⟨h2, hle, hv.trans hocc,
      Nat.lt_of_lt_of_eq hpos (hv.trans hocc).symm⟩
  · rw [countFold_lookup_none _ [] p.1 rfl hmem] at hlk
    simp at hlk

theorem planCandidates_go_mono (freq : List (Bytes × Nat)) :
    ∀ (acc : List Symbol × Nat) (sym : Symbol), sym ∈ acc.1 →
    sym ∈ (freq.foldl
      (fun acc bc =>
        let gain : Int := (bc.2 : Int) * (bc.1.length : Int) - (bc.2 : Int) * 2
        if gain > 0 then (acc.1 ++ [Symbol.new bc.1 acc.2 gain], acc.2 + 1)
        else acc)
      acc).1 := by
  induction freq with
  | nil => intro acc sym h; exact h
  | cons p rest ih =>
    intro acc sym h
    simp only [List.foldl_cons]
    by_cases hg : ((p.2 : Int) * (p.1.length : Int) - (p.2 : Int) * 2) > 0
    · simp only [hg, if_pos]
      exact ih _ sym (List.mem_append_left _ h)
    · simp only [hg, if_neg, reduceIte]
      exact ih _ sym h

theorem planCandidates_go_sound (freq : List (Bytes × Nat)) :
    ∀ (acc : List Symbol × Nat) (sym : Symbol),
    sym ∈ (freq.foldl
      (fun acc bc =>
        let gain : Int := (bc.2 : Int) * (bc.1.length : Int) - (bc.2 : Int) * 2
        if gain > 0 then (acc.1 ++ [Symbol.new bc.1 acc.2 gain], acc.2 + 1)
        else acc)
      acc).1 →
    sym ∈ acc.1 ∨ ∃ p ∈ freq, sym = Symbol.new p.1 sym.token (planGain p) ∧
      0 < planGain p ∧ acc.2 ≤ sym.token := by
  induction freq with
  | nil => intro acc sym h; exact Or.inl h
  | cons p rest ih =>
    intro acc sym h
    simp only [List.foldl_cons] at h
    by_cases hg : ((p.2 : Int) * (p.1.length : Int) - (p.2 : Int) * 2) > 0
    · rw [if_pos hg] at h
      rcases ih _ sym h with hin | ⟨q, hq, hsym, hgq, htok⟩
      · rcases List.mem_append.mp hin with hin2 | hnew
        · exact Or.inl hin2
        · have heq : sym = Symbol.new p.1 acc.2
              ((p.2 : Int) * (p.1.length : Int) - (p.2 : Int) * 2) := by
            simpa using hnew
          refine Or.inr ⟨p, List.mem_cons_self _ _, ?_, ?_, ?_⟩
          · rw [heq]
            rfl
          · exact hg
          · rw [heq]
            exact Nat.le.refl
      · exact Or.inr ⟨q, List.mem_cons_of_mem _ hq, hsym, hgq,
          Nat.le_trans (Nat.le_succ _) htok⟩
    · rw [if_neg hg] at h
      rcases ih _ sym h with hin | ⟨q, hq, hsym, hgq, htok⟩
      · exact Or.inl hin
      · exact Or.inr ⟨q, List.mem_cons_of_mem _ hq, hsym, hgq, htok⟩

theorem planCandidates_go_complete (freq : List (Bytes × Nat)) :
    ∀ (acc : List Symbol × Nat) (p : Bytes × Nat), p ∈ freq →
    0 < planGain p →
    ∃ sym ∈ (freq.foldl
      (fun acc bc =>
        let gain : Int := (bc.2 : Int) * (bc.1.length : Int) - (bc.2 : Int) * 2
        if gain > 0 then (acc.1 ++ [Symbol.new bc.1 acc.2 gain], acc.2 + 1)
        else acc)
      acc).1, sym.bytes = p.1 ∧ sym.gain = planGain p := by
  induction freq with
  | nil => intro acc p h; simp at h
  | cons q rest ih =>
    intro acc p hp hg
    simp only [List.foldl_cons]
    rcases List.mem_cons.mp hp with rfl | hp2
    · have hgq : ((p.2 : Int) * (p.1.length : Int) - (p.2 : Int) * 2) > 0 := by
        simpa [planGain] using hg
      simp only [hgq, if_pos]
      refine ⟨Symbol.new p.1 acc.2 ((p.2 : Int) * (p.1.length : Int) - (p.2 : Int) * 2),
        planCandidates_go_mono rest _ _ (List.mem_append_right _ (by simp)), rfl, ?_⟩
      simp [Symbol.new, planGain]
    · by_cases hgq : ((q.2 : Int) * (q.1.length : Int) - (q.2 : Int) * 2) > 0
      · simp only [hgq, if_pos]
        exact ih _ p hp2 hg
      · simp only [hgq, if_neg, reduceIte]
        exact ih _ p hp2 hg

theorem planCandidates_sound (freq : List (Bytes × Nat)) (sym : Symbol)
    (h : sym ∈ planCandidates freq) :
    ∃ p ∈ freq, sym = Symbol.new p.1 sym.token (planGain p) ∧
      0 < planGain p ∧ 256 ≤ sym.token := by
  rcases planCandidates_go_sound freq ([], 256) sym h with hin | hex
  · simp at hin
  · exact hex

theorem planCandidates_complete (freq : List (Bytes × Nat)) (p : Bytes × Nat)
    (hp : p ∈ freq) (hg : 0 < planGain p) :
    ∃ sym ∈ planCandidates freq, sym.bytes = p.1 ∧ sym.gain = planGain p :=
  planCandidates_go_complete freq ([], 256) p hp hg

theorem mem_insertByGain (s a : Symbol) (l : List Symbol) :
    a ∈ insertByGain s l ↔ a = s ∨ a ∈ l := by
  induction l with
  | nil => simp [insertByGain]
  | cons t ts ih =>
    by_cases h : t.gain < s.gain
    · simp only [insertByGain, h, if_pos]
      constructor
      · intro hm
        rcases List.mem_cons.mp hm with h1 | h1
        · exact Or.inl h1
        · exact Or.inr h1
      · intro hm
        rcases hm with h1 | h1
        · exact List.mem_cons.mpr (Or.inl h1)
        · exact List.mem_cons_of_mem _ h1
    · simp only [insertByGain, h, if_neg, reduceIte]
      constructor
      · intro hm
        rcases List.mem_cons.mp hm with h1 | h1
        · exact Or.inr (List.mem_cons.mpr (Or.inl h1))
        · rcases ih.mp h1 with h2 | h2
          · exact Or.inl h2
          · exact Or.inr (List.mem_cons_of_mem _ h2)
      · intro hm
        rcases hm with h1 | h1
        · exact List.mem_cons_of_mem _ (ih.mpr (Or.inl h1))
        · rcases List.mem_cons.mp h1 with h2 | h2
          · exact List.mem_cons.mpr (Or.inl h2)
          · exact List.mem_cons_of_mem _ (ih.mpr (Or.inr h2))

theorem length_insertByGain (s : Symbol) (l : List Symbol) :
    (insertByGain s l).length = l.length + 1 := by
  induction l with
  | nil => rfl
  | cons t ts ih =>
    by_cases h : t.gain < s.gain
    · simp [insertByGain, h]
    · simp [insertByGain, h, ih]

theorem sorted_insertByGain (s : Symbol) (l : List Symbol)
    (hs : l.Sorted fun a b => b.gain ≤ a.gain) :
    (insertByGain s l).Sorted fun a b => b.gain ≤ a.gain := by
  induction l with
  | nil => simp [insertByGain]
  | cons t ts ih =>
    rw [List.sorted_cons] at hs
    by_cases h : t.gain < s.gain
    · simp only [insertByGain, h, if_pos]
      rw [List.sorted_cons]
      refine ⟨?_, List.sorted_cons.mpr hs⟩
      intro b hb
      rcases List.mem_cons.mp hb with rfl | hb2
      · exact Int.le_of_lt h
      · exact Int.le_trans (hs.1 b hb2) (Int.le_of_lt h)
    · simp only [insertByGain, h, if_neg, reduceIte]
      rw [List.sorted_cons]
      refine ⟨?_, ih hs.2⟩
      intro b hb
      rcases (mem_insertByGain s b ts).mp hb with rfl | hb2
      · exact Int.not_lt.mp h
      · exact hs.1 b hb2

theorem mem_sortByGainDesc (l : List Symbol) (a : Symbol) :
    a ∈ sortByGainDesc l ↔ a ∈ l := by
  induction l with
  | nil => simp [sortByGainDesc]
  | cons t ts ih =>
    simp only [sortByGainDesc, List.foldr_cons] at ih ⊢
    rw [mem_insertByGain, ih, List.mem_cons]

theorem length_sortByGainDesc (l : List Symbol) :
    (sortByGainDesc l).length = l.length := by
  induction l with
  | nil => rfl
  | cons t ts ih =>
    simp only [sortByGainDesc, List.foldr_cons] at ih ⊢
    rw [length_insertByGain, ih, List.length_cons]

theorem sorted_sortByGainDesc (l : List Symbol) :
    (sortByGainDesc l).Sorted fun a b => b.gain ≤ a.gain := by
  induction l with
  | nil => simp [sortByGainDesc]
  | cons t ts ih =>
    simp only [sortByGainDesc, List.foldr_cons] at ih ⊢
    exact sorted_insertByGain t _ ih

theorem plan_symbols_eq_of_small (data : Bytes) (maxLen : Nat)
    (hsmall : data.length ≤ 1024 * 1024) :
    plan_symbols data maxLen =
      (sortByGainDesc (planCandidates (planFreq data (min maxLen 16)))).take
        1000 := by
  unfold plan_symbols plannerSample
  rw [if_neg (by omega)]

/-- Claim C5, amended: characterisation of the planner output with the
corrected occurrence count (positions `i` with `i + len < data.len()`). -/
theorem plan_symbols_characterisation (data : Bytes) (maxLen : Nat)
    (hsmall : data.length ≤ 1024 * 1024) :
    planCharacterisation data maxLen := by
  have heq := plan_symbols_eq_of_small data maxLen hsmall
  refine ⟨?_, ?_, ?_, ?_⟩
  · intro sym hmem
    rw [heq] at hmem
    have hmem2 := (mem_sortByGainDesc _ sym).mp (List.mem_of_mem_take hmem)
    obtain ⟨p, hp, hsym, hgain, htok⟩ := planCandidates_sound _ sym hmem2
    obtain ⟨h2, hle, hcnt, hpos⟩ := planFreq_mem_char data _ p hp
    have hbytes : sym.bytes = p.1 := by rw [hsym]; rfl
    have hgval : sym.gain = planGain p := by rw [hsym]; rfl
    refine ⟨?_, ?_, ?_, ?_, ?_, htok⟩
    · rw [hbytes]; exact h2
    · rw [hbytes]; exact hle
    · rw [hbytes, ← hcnt]; exact hpos
    · rw [hgval, hbytes, planGain, hcnt]
      omega
    · rw [hgval]; exact hgain
  · intro hlen1000 s h2 hle hgpos
    have hcpos : 0 < countOccStrict s data := by
      rcases Nat.eq_zero_or_pos (countOccStrict s data) with h0 | hp
      · rw [h0] at hgpos
        simp at hgpos
      · exact hp
    have hlk := planFreq_lookup data s (min maxLen 16) h2 hle hcpos
    have hmem := alookup_mem hlk
    have hg2 : 0 < planGain (s, countOccStrict s data) := by
      simp only [planGain]
      omega
    obtain ⟨sym, hsmem, hbytes, _⟩ := planCandidates_complete _ _ hmem hg2
    refine ⟨sym, ?_, hbytes⟩
    rw [heq, List.take_of_length_le]
    · exact (mem_sortByGainDesc _ sym).mpr hsmem
    · rw [length_sortByGainDesc]
      exact hlen1000
  · rw [heq, List.length_take]
    exact Nat.min_le_left _ _
  · rw [heq]
    exact (sorted_sortByGainDesc _).sublist (List.take_sublist _ _)

/-- Claim C5, witness for the amended theorem at `data = [0,0,0,0,0]`,
`max_len = 32`. -/
theorem plan_symbols_characterisation_witness :
    ([0, 0, 0, 0, 0] : Bytes).length ≤ 1024 * 1024 ∧
    planCharacterisation [0, 0, 0, 0, 0] 32 :=
  ⟨by decide, plan_symbols_characterisation [0, 0, 0, 0, 0] 32 (by decide)⟩

end Symvead
